import Mathlib

/-!
Web_Crawler: graph, queue, BFS and DFS of `maincode.c`.

Shallow embedding of `src/maincode.c`.

* C `int` values are `Int`.
* A fixed-size C array is a `List`; an access outside of it is undefined
  behaviour in C and yields `none` here (`readAt`, `writeAt`).  Every
  operation that can reach such an access returns an `Option`.
* `malloc` is assumed to succeed (the `exit(EXIT_FAILURE)` paths are not
  modelled).  A slot of a freshly allocated `Graph` holds no value until it
  is written: such a slot is `none`.
* A `GraphNode` chain is never mutated after it has been linked in, so a
  `GraphNode *` is embedded as the `List Int` of the `pageIndex` fields met
  when following `next` (`NULL` is `[]`).
* `QueueNode`s are mutated through `rear->next`, so the queue is embedded
  with an explicit node store: an address is a position in `Queue.heap`,
  `malloc` appends a cell and `free` empties it.
* `printf` appends a `Printed` record to the output.
* Loops whose termination depends on the data take a `fuel` argument
  (loop iterations for BFS, call depth for DFS); running out of fuel is
  `none`.
-/

namespace WebCrawler

/-! ## Constants and arrays -/

def MAX_URL_LEN : Nat := 100

def MAX_PAGES : Nat := 15

/-- Array read `arr[i]`; `none` when `i` lies outside the array. -/
def readAt {α : Type} (arr : List α) (i : Int) : Option α :=
  if 0 ≤ i then arr[i.toNat]? else none

/-- Array write `arr[i] = v`; `none` when `i` lies outside the array. -/
def writeAt {α : Type} (arr : List α) (i : Int) (v : α) : Option (List α) :=
  if 0 ≤ i ∧ i.toNat < arr.length then some (arr.set i.toNat v) else none

/-! ## Graph -/

/-- Node of an adjacency chain: `next` is the chain that follows it. -/
structure GraphNode where
  pageIndex : Int
  next : List Int
  deriving DecidableEq

/-- The chain that starts at a node, as the sequence of its page indices. -/
def GraphNode.chain (n : GraphNode) : List Int := n.pageIndex :: n.next

/-- The `Graph` record: `urls[MAX_PAGES]` and `adjList[MAX_PAGES]`; a slot
that was never written (or a URL buffer without terminator) is `none`. -/
structure Graph where
  numPages : Int
  urls : List (Option String)
  adjList : List (Option (List Int))
  deriving DecidableEq

/-- Reading `graph->urls[i]` as a string. -/
def Graph.url (g : Graph) (i : Int) : Option String := (readAt g.urls i).join

/-- Reading `graph->adjList[i]` as a chain. -/
def Graph.adj (g : Graph) (i : Int) : Option (List Int) := (readAt g.adjList i).join

def createGraphNode (pageIndex : Int) : GraphNode :=
  { pageIndex := pageIndex, next := [] }

/-- Result of `malloc(sizeof(Graph))` after `graph->numPages = numPages`. -/
def allocGraph (numPages : Int) : Graph :=
  { numPages := numPages
    urls := List.replicate MAX_PAGES none
    adjList := List.replicate MAX_PAGES none }

/-- Text written by `snprintf(buf, size, "Page_%d", i)`. -/
def defaultUrl (size : Nat) (i : Int) : String :=
  String.mk ((("Page_" ++ toString i).toList).take (size - 1))

/-- Body of the `for` loop of `createGraph` at index `i`. -/
def createGraphStep (g : Graph) (i : Int) : Option Graph :=
  match writeAt g.adjList i (some []) with
  | none => none
  | some adj =>
    match writeAt g.urls i (some (defaultUrl MAX_URL_LEN i)) with
    | none => none
    | some urls => some { g with adjList := adj, urls := urls }

/-- The loop `for (i = 0; i < numPages; i++)` of `createGraph`. -/
def createGraphLoop (g : Graph) : List Nat → Option Graph
  | [] => some g
  | i :: rest =>
    match createGraphStep g (i : Int) with
    | none => none
    | some g1 => createGraphLoop g1 rest

def createGraph (numPages : Int) : Option Graph :=
  createGraphLoop (allocGraph numPages) (List.range numPages.toNat)

/-- Content of a buffer after `strncpy(buf, url, n)`, read as a string:
`none` when `url` takes `n` or more bytes (no terminator is written). -/
def strncpy (url : String) (n : Nat) : Option String :=
  if url.utf8ByteSize < n then some url else none

def setPageUrl (g : Graph) (pageIndex : Int) (url : String) : Option Graph :=
  if pageIndex < (MAX_PAGES : Int) then
    match writeAt g.urls pageIndex (strncpy url MAX_URL_LEN) with
    | none => none
    | some urls => some { g with urls := urls }
  else some g

def addEdge (g : Graph) (src dest : Int) : Option Graph :=
  let newNode := createGraphNode dest
  match g.adj src with
  | none => none
  | some old =>
    let newNode := { newNode with next := old }
    match writeAt g.adjList src (some newNode.chain) with
    | none => none
    | some adj => some { g with adjList := adj }

/-! ## Queue -/

structure QueueNode where
  pageIndex : Int
  next : Option Nat
  deriving DecidableEq

/-- The `Queue` record together with the store of its nodes
(`none` is a freed cell). -/
structure Queue where
  heap : List (Option QueueNode)
  front : Option Nat
  rear : Option Nat
  deriving DecidableEq

def createQueue : Queue := { heap := [], front := none, rear := none }

def enqueue (q : Queue) (pageIndex : Int) : Option Queue :=
  let newNode : Nat := q.heap.length
  let heap1 := q.heap ++ [some { pageIndex := pageIndex, next := none }]
  let linked : Option (List (Option QueueNode)) :=
    match q.rear with
    | some r =>
      match heap1[r]? with
      | some (some nd) => some (heap1.set r (some { nd with next := some newNode }))
      | _ => none
    | none => some heap1
  match linked with
  | none => none
  | some heap2 =>
    some { heap := heap2
           rear := some newNode
           front := if q.front = none then some newNode else q.front }

def dequeue (q : Queue) : Option (Int × Queue) :=
  match q.front with
  | none => some (-1, q)
  | some temp =>
    match q.heap[temp]? with
    | some (some nd) =>
      let front := nd.next
      some (nd.pageIndex,
        { heap := q.heap.set temp none
          front := front
          rear := if front = none then none else q.rear })
    | _ => none

/-- The loop `while (q->front != NULL) dequeue(q);` followed by `free(q)`. -/
def freeQueue : Nat → Queue → Option Unit
  | 0, q =>
    match q.front with
    | none => some ()
    | some _ => none
  | fuel + 1, q =>
    match q.front with
    | none => some ()
    | some _ =>
      match dequeue q with
      | none => none
      | some (_, q1) => freeQueue fuel q1

/-! ## Output -/

/-- One `printf` call of the program. -/
inductive Printed where
  | graphPage (i : Int) (url : String)
  | graphEdge (j : Int) (url : String)
  | newline
  | bfsBanner (start : Int) (url : String)
  | dfsBanner
  | visited (page : Int) (url : String)
  | chooseMethod
  | invalidChoice
  deriving DecidableEq

/-- The text a `printf` call emits. -/
def Printed.render : Printed → String
  | .graphPage i url => "Page " ++ toString i ++ " (" ++ url ++ "):"
  | .graphEdge j url => " -> Page " ++ toString j ++ " (" ++ url ++ ")"
  | .newline => "\n"
  | .bfsBanner start url =>
    "BFS Traversal starting from page " ++ toString start ++ " (" ++ url ++ "):\n"
  | .dfsBanner => "DFS Traversal starting from page 0:\n"
  | .visited page url => "Visited: Page " ++ toString page ++ " (" ++ url ++ ")\n"
  | .chooseMethod => "Choose traversal method:\n1. BFS\n2. DFS\nEnter choice: "
  | .invalidChoice => "Invalid choice!\n"

/-- The pages of the `Visited:` lines of an output, in order. -/
def visitedPages : List Printed → List Int
  | [] => []
  | .visited page _ :: rest => page :: visitedPages rest
  | _ :: rest => visitedPages rest

/-! ## Traversals -/

/-- Inner loop of `bfsTraversal` over the chain `adjList`. -/
def bfsScan (visited : List Int) (q : Queue) : List Int → Option (List Int × Queue)
  | [] => some (visited, q)
  | adjIndex :: next =>
    match readAt visited adjIndex with
    | none => none
    | some flag =>
      if flag = 0 then
        match writeAt visited adjIndex 1 with
        | none => none
        | some visited1 =>
          match enqueue q adjIndex with
          | none => none
          | some q1 => bfsScan visited1 q1 next
      else bfsScan visited q next

/-- Outer loop `while (q->front != NULL)` of `bfsTraversal`; `fuel` bounds
the number of iterations. -/
def bfsLoop (g : Graph) :
    Nat → List Int → Queue → List Printed → Option (List Int × Queue × List Printed)
  | 0, visited, q, out =>
    match q.front with
    | none => some (visited, q, out)
    | some _ => none
  | fuel + 1, visited, q, out =>
    match q.front with
    | none => some (visited, q, out)
    | some _ =>
      match dequeue q with
      | none => none
      | some (pageIndex, q1) =>
        match g.url pageIndex with
        | none => none
        | some url =>
          match g.adj pageIndex with
          | none => none
          | some adjList =>
            match bfsScan visited q1 adjList with
            | none => none
            | some (visited1, q2) =>
              bfsLoop g fuel visited1 q2 (out ++ [Printed.visited pageIndex url])

def bfsTraversal (fuel : Nat) (g : Graph) (start : Int) : Option (List Printed) :=
  let visited : List Int := List.replicate MAX_PAGES 0
  let q := createQueue
  match g.url start with
  | none => none
  | some url =>
    let out := [Printed.bfsBanner start url]
    match enqueue q start with
    | none => none
    | some q1 =>
      match writeAt visited start 1 with
      | none => none
      | some visited1 =>
        match bfsLoop g fuel visited1 q1 out with
        | none => none
        | some (_, q2, out1) =>
          match freeQueue fuel q2 with
          | none => none
          | some _ => some out1

/-- Loop of `dfsTraversal` over the chain `adjList`; `call` is the
recursive call. -/
def dfsScan (call : Int → List Int → Option (List Int × List Printed)) :
    List Int → List Int → List Printed → Option (List Int × List Printed)
  | [], visited, out => some (visited, out)
  | adjIndex :: next, visited, out =>
    match readAt visited adjIndex with
    | none => none
    | some flag =>
      if flag = 0 then
        match call adjIndex visited with
        | none => none
        | some (visited1, out1) => dfsScan call next visited1 (out ++ out1)
      else dfsScan call next visited out

/-- The function `dfsTraversal`: returns the `visited` array on return and what
the call printed; `fuel` bounds the depth of nested calls. -/
def dfsTraversal (g : Graph) : Nat → Int → List Int → Option (List Int × List Printed)
  | 0, _, _ => none
  | fuel + 1, start, visited =>
    match writeAt visited start 1 with
    | none => none
    | some visited1 =>
      match g.url start with
      | none => none
      | some url =>
        match g.adj start with
        | none => none
        | some adjList =>
          dfsScan (dfsTraversal g fuel) adjList visited1 [Printed.visited start url]

/-! ## Driver -/

/-- A run of consecutive `setPageUrl(graph, i, url)` calls. -/
def setPageUrls (g : Graph) : List (Int × String) → Option Graph
  | [] => some g
  | (i, url) :: rest =>
    match setPageUrl g i url with
    | none => none
    | some g1 => setPageUrls g1 rest

/-- A run of consecutive `addEdge(graph, src, dest)` calls. -/
def addEdges (g : Graph) : List (Int × Int) → Option Graph
  | [] => some g
  | (src, dest) :: rest =>
    match addEdge g src dest with
    | none => none
    | some g1 => addEdges g1 rest

/-- The `setPageUrl` calls of `main`, in order. -/
def sampleUrls : List (Int × String) :=
  [ (0, "http://example.com"),
    (1, "http://example.com/page1"),
    (2, "http://example.com/page2"),
    (3, "http://example.com/page1/subpage1"),
    (4, "http://example.com/page1/subpage2"),
    (5, "http://example.com/page2/subpage1"),
    (6, "http://example.com/page2/subpage2"),
    (7, "http://example.com/page1/subpage1/subsubpage1"),
    (8, "http://example.com/page1/subpage2/subsubpage1"),
    (9, "http://example.com/page2/subpage1/subsubpage1") ]

/-- The `addEdge` calls of `main`, in order. -/
def sampleEdges : List (Int × Int) :=
  [(0, 1), (0, 2), (1, 3), (1, 4), (2, 5), (2, 6), (3, 7), (4, 8), (5, 9)]

/-- Graph built by `main` before `printGraph`. -/
def sampleGraph : Option Graph :=
  match createGraph 10 with
  | none => none
  | some g =>
    match setPageUrls g sampleUrls with
    | none => none
    | some g1 => addEdges g1 sampleEdges

/-! ## Queue contents -/

/-- Nodes met when following `next` from pointer `p` (address and value),
`none` when a dangling pointer is met or more than `fuel` nodes follow. -/
def chainNodes (heap : List (Option QueueNode)) : Nat → Option Nat → Option (List (Nat × Int))
  | _, none => some []
  | 0, some _ => none
  | fuel + 1, some a =>
    match heap[a]? with
    | some (some nd) =>
      match chainNodes heap fuel nd.next with
      | none => none
      | some rest => some ((a, nd.pageIndex) :: rest)
    | _ => none

/-- The queue viewed as the list of its values from front to rear: the chain
from `front` ends, meets no node twice, and `rear` is its last node. -/
def Queue.toList (q : Queue) : Option (List Int) :=
  match chainNodes q.heap q.heap.length q.front with
  | none => none
  | some nodes =>
    if (nodes.map Prod.fst).Nodup ∧ (nodes.map Prod.fst).getLast? = q.rear then
      some (nodes.map Prod.snd)
    else none

/-- Pointer `p` leads through the nodes at addresses `as`, holding `xs`, to `NULL`. -/
inductive Chain (heap : List (Option QueueNode)) : Option Nat → List Nat → List Int → Prop
  | nil : Chain heap none [] []
  | cons (a : Nat) (x : Int) (nx : Option Nat) (as : List Nat) (xs : List Int) :
      heap[a]? = some (some { pageIndex := x, next := nx }) →
      Chain heap nx as xs → Chain heap (some a) (a :: as) (x :: xs)

/-- Representation relation behind `Queue.toList`. -/
def Queue.Rep (q : Queue) (xs : List Int) : Prop :=
  ∃ as, Chain q.heap q.front as xs ∧ as.Nodup ∧ as.getLast? = q.rear

/-- The calls `enqueue(q, v)` for the values of a list, in order. -/
def enqueueAll (q : Queue) : List Int → Option Queue
  | [] => some q
  | v :: vs =>
    match enqueue q v with
    | none => none
    | some q1 => enqueueAll q1 vs

/-- The call `dequeue(q)` made `n` times: the values returned, in order, and
the queue left. -/
def dequeueN (q : Queue) : Nat → Option (List Int × Queue)
  | 0 => some ([], q)
  | n + 1 =>
    match dequeue q with
    | none => none
    | some (v, q1) =>
      match dequeueN q1 n with
      | none => none
      | some (vs, q2) => some (v :: vs, q2)

/-- The queue after `enqueue(q, 5); enqueue(q, 7)` on a new queue. -/
def queue57 : Queue :=
  { heap := [some ⟨5, some 1⟩, some ⟨7, none⟩], front := some 0, rear := some 1 }

/-! ## Specification vocabulary -/

/-- Page `b` is an entry of the adjacency sequence of page `a`. -/
def Graph.Edge (g : Graph) (a b : Int) : Prop := ∃ l, g.adj a = some l ∧ b ∈ l

/-- Page `b` is reached from page `a` by following zero or more edges. -/
def Graph.Reach (g : Graph) : Int → Int → Prop := Relation.ReflTransGen g.Edge

/-- A walk of `n` edges leads from `s` to the page. -/
inductive Graph.Walk (g : Graph) (s : Int) : Nat → Int → Prop
  | zero : Graph.Walk g s 0 s
  | step {n : Nat} {a b : Int} : Graph.Walk g s n a → g.Edge a b → Graph.Walk g s (n + 1) b

/-- The shortest-path distance (number of edges) from `s` to `v` is `d`. -/
def Graph.IsDist (g : Graph) (s v : Int) (d : Nat) : Prop :=
  g.Walk s d v ∧ ∀ n, g.Walk s n v → d ≤ n

/-- Page `i` of the graph is usable: its URL and adjacency sequence are
initialised, and every adjacency entry lies in `[0, numPages)`. -/
def Graph.PageOk (g : Graph) (i : Nat) : Prop :=
  (g.url (i : Int)).isSome = true ∧ (g.adj (i : Int)).isSome = true ∧
    ∀ j ∈ (g.adj (i : Int)).getD [], 0 ≤ j ∧ j < g.numPages

/-- Well-formed graph: `0 ≤ numPages ≤ MAX_PAGES` and every page below
`numPages` is usable. -/
def Graph.WellFormed (g : Graph) : Prop :=
  0 ≤ g.numPages ∧ g.numPages ≤ (MAX_PAGES : Int) ∧
    ∀ i ∈ List.range g.numPages.toNat, g.PageOk i

instance (g : Graph) (i : Nat) : Decidable (g.PageOk i) := by
  unfold Graph.PageOk; infer_instance

instance (g : Graph) : Decidable g.WellFormed := by
  unfold Graph.WellFormed; infer_instance

/-- Three pages in use: page 0 links to page 1 and to itself, page 1 links
back to page 0, and page 2 (not reachable from page 0) links to page 0. -/
def loopGraph : Graph :=
  { numPages := 3
    urls := [some "Page_0", some "Page_1", some "Page_2"] ++ List.replicate 12 none
    adjList := [some [1, 0], some [0], some [0]] ++ List.replicate 12 none }

/-! ## Loop invariants -/

/-- Invariant of the loops of `bfsTraversal`: `done` are the pages printed so
far, `queued` the content of the queue, `d` a distance function. -/
structure BfsBase (g : Graph) (s : Int) (d : Int → Nat) (visited : List Int)
    (done queued : List Int) : Prop where
  flags : ∀ p, 0 ≤ p → p < g.numPages →
    ∃ f, readAt visited p = some f ∧ (f ≠ 0 ↔ p ∈ done ++ queued)
  nodup : (done ++ queued).Nodup
  inRange : ∀ p ∈ done ++ queued, 0 ≤ p ∧ p < g.numPages
  reach : ∀ p ∈ done ++ queued, ∃ m, g.Walk s m p
  sorted : (done ++ queued).Pairwise (fun a b => d a ≤ d b)
  head : (done ++ queued).head? = some s

/-- The flag array `visited` marks exactly the pages of `seen`, and has a
flag for every page of the graph. -/
structure Flags (g : Graph) (visited : List Int) (seen : List Int) : Prop where
  readable : ∀ p, 0 ≤ p → p < g.numPages → ∃ f, readAt visited p = some f
  marks : ∀ p f, readAt visited p = some f → (f ≠ 0 ↔ p ∈ seen)

/-! ## Depth-first pre-order, as the specification words it -/

/-- Scanning the neighbour sequence of a page in stored order, with `seen` the
pages visited so far, prints `out`: a neighbour already seen prints nothing;
an unseen neighbour `w` is printed first, then everything printed while the
neighbours of `w` are scanned (`sub`), and only then the scan goes on to the
next neighbour. -/
inductive Graph.Blocks (g : Graph) : List Int → List Int → List Int → Prop
  | nil {seen : List Int} : Graph.Blocks g seen [] []
  | skip {seen : List Int} {w : Int} {ws out : List Int} :
      w ∈ seen → Graph.Blocks g seen ws out → Graph.Blocks g seen (w :: ws) out
  | visit {seen : List Int} {w : Int} {ws ws1 sub out : List Int} :
      w ∉ seen → g.adj w = some ws1 → Graph.Blocks g (seen ++ [w]) ws1 sub →
      Graph.Blocks g (seen ++ w :: sub) ws out →
      Graph.Blocks g seen (w :: ws) (w :: sub ++ out)

/-- A call on page `v`, with `seen` the pages visited before it, prints `out`
in pre-order: `v` first, then the blocks of its neighbours in stored order. -/
def Graph.PreOrder (g : Graph) (seen : List Int) (v : Int) (out : List Int) : Prop :=
  ∃ ws sub, g.adj v = some ws ∧ out = v :: sub ∧ g.Blocks (seen ++ [v]) ws sub

/-! ## Graph dump and driver -/

/-- Inner loop of `printGraph` over the chain `temp`. -/
def printGraphChain (g : Graph) : List Int → List Printed → Option (List Printed)
  | [], out => some out
  | pageIndex :: next, out =>
    match g.url pageIndex with
    | none => none
    | some url => printGraphChain g next (out ++ [Printed.graphEdge pageIndex url])

/-- The loop `for (i = 0; i < graph->numPages; i++)` of `printGraph`. -/
def printGraphLoop (g : Graph) : List Nat → List Printed → Option (List Printed)
  | [], out => some out
  | i :: rest, out =>
    match g.adj (i : Int) with
    | none => none
    | some temp =>
      match g.url (i : Int) with
      | none => none
      | some url =>
        match printGraphChain g temp (out ++ [Printed.graphPage (i : Int) url]) with
        | none => none
        | some out1 => printGraphLoop g rest (out1 ++ [Printed.newline])

/-- The function `printGraph`: what it prints.  It only reads the graph. -/
def printGraph (g : Graph) : Option (List Printed) :=
  printGraphLoop g (List.range g.numPages.toNat) []

/-- The loop of `freeGraph`: every chain below `numPages` is read and freed. -/
def freeGraphLoop (g : Graph) : List Nat → Option Unit
  | [] => some ()
  | i :: rest =>
    match g.adj (i : Int) with
    | none => none
    | some _ => freeGraphLoop g rest

def freeGraph (g : Graph) : Option Unit :=
  freeGraphLoop g (List.range g.numPages.toNat)

/-- The function `main` after `scanf` has stored `choice`: what is printed, and
the exit status. -/
def main (fuel : Nat) (choice : Int) : Option (List Printed × Int) :=
  match sampleGraph with
  | none => none
  | some graph =>
    match printGraph graph with
    | none => none
    | some dump =>
      let prompt := [Printed.chooseMethod]
      let ran : Option (List Printed) :=
        if choice = 1 then bfsTraversal fuel graph 0
        else if choice = 2 then
          let visited : List Int := List.replicate MAX_PAGES 0
          match dfsTraversal graph fuel 0 visited with
          | none => none
          | some (_, out) => some ([Printed.dfsBanner] ++ out)
        else some [Printed.invalidChoice]
      match ran with
      | none => none
      | some out =>
        match freeGraph graph with
        | none => none
        | some _ => some (dump ++ prompt ++ out, 0)

/-- The text of an output: what its `printf` calls emit, in order. -/
def renderAll : List Printed → String
  | [] => ""
  | x :: rest => x.render ++ renderAll rest

/-- The URL of page `i` (empty when the slot holds none). -/
def Graph.urlText (g : Graph) (i : Int) : String := (g.url i).getD ""

/-- The text `" -> Page <j> (<url_j>)"` for each entry of a sequence, in order. -/
def Graph.dumpEdges (g : Graph) : List Int → String
  | [] => ""
  | j :: rest =>
    " -> Page " ++ toString j ++ " (" ++ g.urlText j ++ ")" ++ g.dumpEdges rest

/-- Line `i` of the graph dump, as the specification words it. -/
def Graph.dumpLine (g : Graph) (i : Int) : String :=
  "Page " ++ toString i ++ " (" ++ g.urlText i ++ "):" ++
    (g.dumpEdges ((g.adj i).getD []) ++ "\n")

/-- The lines of the pages of a list, one after the other. -/
def Graph.dumpText (g : Graph) : List Nat → String
  | [] => ""
  | i :: rest => g.dumpLine (i : Int) ++ g.dumpText rest

/-- The `printf` calls of `printGraph` for page `i`. -/
def Graph.dumpRecords (g : Graph) (i : Int) : List Printed :=
  [Printed.graphPage i (g.urlText i)] ++
    ((g.adj i).getD []).map (fun j => Printed.graphEdge j (g.urlText j)) ++ [Printed.newline]

/-- The `printf` calls of `printGraph` for the pages of a list. -/
def Graph.dumpAll (g : Graph) : List Nat → List Printed
  | [] => []
  | i :: rest => g.dumpRecords (i : Int) ++ g.dumpAll rest

/-- A record printed by a traversal: a banner or a `Visited:` line. -/
def Printed.isTraversal : Printed → Bool
  | .bfsBanner _ _ => true
  | .dfsBanner => true
  | .visited _ _ => true
  | _ => false

/-- An operation of `bfsTraversal` that the resource and safety claims speak of. -/
inductive BfsEvent where
  /-- A call `enqueue(q, pageIndex)`. -/
  | enq (pageIndex : Int)
  /-- A call `dequeue(q)` of the loop, with the value it returned. -/
  | deq (returned : Int)
  /-- An access `visited[i]`, `graph->urls[i]` or `graph->adjList[i]`. -/
  | idx (i : Int)
  deriving DecidableEq

/-- The arguments of the `enqueue` calls of a log, in order. -/
def enqs : List BfsEvent → List Int
  | [] => []
  | .enq v :: rest => v :: enqs rest
  | _ :: rest => enqs rest

/-- The values returned by the `dequeue` calls of a log, in order. -/
def deqs : List BfsEvent → List Int
  | [] => []
  | .deq v :: rest => v :: deqs rest
  | _ :: rest => deqs rest

/-- The array indices of a log, in order. -/
def idxs : List BfsEvent → List Int
  | [] => []
  | .idx i :: rest => i :: idxs rest
  | _ :: rest => idxs rest

/-- The function `bfsScan`, with every array access and `enqueue` call appended to `log`. -/
def bfsScanLog (visited : List Int) (q : Queue) :
    List Int → List BfsEvent → Option (List Int × Queue × List BfsEvent)
  | [], log => some (visited, q, log)
  | adjIndex :: next, log =>
    match readAt visited adjIndex with
    | none => none
    | some flag =>
      if flag = 0 then
        match writeAt visited adjIndex 1 with
        | none => none
        | some visited1 =>
          match enqueue q adjIndex with
          | none => none
          | some q1 =>
            bfsScanLog visited1 q1 next
              (log ++ [BfsEvent.idx adjIndex, BfsEvent.idx adjIndex, BfsEvent.enq adjIndex])
      else bfsScanLog visited q next (log ++ [BfsEvent.idx adjIndex])

/-- The function `bfsLoop`, with every `dequeue` call, array access and `enqueue`
call appended to `log`. -/
def bfsLoopLog (g : Graph) :
    Nat → List Int → Queue → List Printed → List BfsEvent →
      Option (List Int × Queue × List Printed × List BfsEvent)
  | 0, visited, q, out, log =>
    match q.front with
    | none => some (visited, q, out, log)
    | some _ => none
  | fuel + 1, visited, q, out, log =>
    match q.front with
    | none => some (visited, q, out, log)
    | some _ =>
      match dequeue q with
      | none => none
      | some (pageIndex, q1) =>
        match g.url pageIndex with
        | none => none
        | some url =>
          match g.adj pageIndex with
          | none => none
          | some adjList =>
            match bfsScanLog visited q1 adjList
                (log ++ [BfsEvent.deq pageIndex, BfsEvent.idx pageIndex,
                  BfsEvent.idx pageIndex]) with
            | none => none
            | some (visited1, q2, log1) =>
              bfsLoopLog g fuel visited1 q2 (out ++ [Printed.visited pageIndex url]) log1

/-- The function `bfsTraversal`, returning with its output the log of its
`enqueue` calls, of the `dequeue` calls of its loop and of its array accesses. -/
def bfsTraversalLog (fuel : Nat) (g : Graph) (start : Int) :
    Option (List Printed × List BfsEvent) :=
  let visited : List Int := List.replicate MAX_PAGES 0
  let q := createQueue
  match g.url start with
  | none => none
  | some url =>
    let out := [Printed.bfsBanner start url]
    match enqueue q start with
    | none => none
    | some q1 =>
      match writeAt visited start 1 with
      | none => none
      | some visited1 =>
        match bfsLoopLog g fuel visited1 q1 out
            [BfsEvent.idx start, BfsEvent.enq start, BfsEvent.idx start] with
        | none => none
        | some (_, q2, out1, log) =>
          match freeQueue fuel q2 with
          | none => none
          | some _ => some (out1, log)

/-- The number of newline characters of a text: the number of lines of a text
made of newline-terminated lines. -/
def lineCount (s : String) : Nat := s.data.count '\n'

/-- One page in use, whose URL holds a newline character: the graph after
`createGraph(1)` and `setPageUrl(graph, 0, "a\nb")`. -/
def newlineGraph : Graph :=
  { numPages := 1
    urls := [some "a\nb"] ++ List.replicate 14 none
    adjList := [some []] ++ List.replicate 14 none }

/-! ## Proofs -/

/-! ## Queue representation -/

theorem Chain.length_eq {heap p as xs} (h : Chain heap p as xs) : as.length = xs.length := by
  induction h with
  | nil => rfl
  | cons a x nx as xs _ _ ih => simp [ih]

theorem Chain.addr_lt {heap p as xs} (h : Chain heap p as xs) : ∀ a ∈ as, a < heap.length := by
  induction h with
  | nil => simp
  | cons a x nx as xs h1 _ ih =>
    intro b hb
    rcases List.mem_cons.1 hb with rfl | hb
    · by_contra hlt
      rw [List.getElem?_eq_none (by omega)] at h1
      cases h1
    · exact ih b hb

theorem Chain.nil_iff {heap p xs as} (h : Chain heap p as xs) : p = none ↔ xs = [] := by
  cases h <;> simp

theorem Chain.to_nodes {heap p as xs} (h : Chain heap p as xs) :
    ∀ fuel, as.length ≤ fuel → chainNodes heap fuel p = some (as.zip xs) := by
  induction h with
  | nil => intro fuel _; cases fuel <;> rfl
  | cons a x nx as xs h1 _ ih =>
    intro fuel hf
    cases fuel with
    | zero => simp at hf
    | succ fuel =>
      simp only [chainNodes, h1]
      rw [ih fuel (by simpa using hf)]
      rfl

theorem Chain.of_nodes {heap} : ∀ fuel p nodes, chainNodes heap fuel p = some nodes →
    Chain heap p (nodes.map Prod.fst) (nodes.map Prod.snd) := by
  intro fuel
  induction fuel with
  | zero =>
    intro p nodes h
    cases p with
    | none => simp [chainNodes] at h; subst h; exact Chain.nil
    | some a => simp [chainNodes] at h
  | succ fuel ih =>
    intro p nodes h
    cases p with
    | none => simp [chainNodes] at h; subst h; exact Chain.nil
    | some a =>
      simp only [chainNodes] at h
      split at h
      · rename_i nd hnd
        split at h
        · cases h
        · rename_i rest hrest
          cases h
          exact Chain.cons a nd.pageIndex nd.next _ _ hnd (ih _ _ hrest)
      · cases h

theorem nodup_length_le {as : List Nat} {n : Nat} (hnd : as.Nodup) (hlt : ∀ a ∈ as, a < n) :
    as.length ≤ n := by
  have h1 : as.toFinset ⊆ Finset.range n := by
    intro a ha
    simp only [List.mem_toFinset] at ha
    simpa using hlt a ha
  have h2 := Finset.card_le_card h1
  rw [List.toFinset_card_of_nodup hnd] at h2
  simpa using h2

theorem Queue.toList_iff_rep (q : Queue) (xs : List Int) : q.toList = some xs ↔ q.Rep xs := by
  constructor
  · intro h
    unfold Queue.toList at h
    split at h
    · cases h
    · rename_i nodes hn
      split at h
      · rename_i hc
        cases h
        exact ⟨_, Chain.of_nodes _ _ _ hn, hc.1, hc.2⟩
      · cases h
  · rintro ⟨as, hc, hnd, hlast⟩
    have hlen := nodup_length_le hnd hc.addr_lt
    unfold Queue.toList
    rw [hc.to_nodes _ hlen]
    have hl := hc.length_eq
    have e1 : (as.zip xs).map Prod.fst = as := by
      rw [List.map_fst_zip]; omega
    have e2 : (as.zip xs).map Prod.snd = xs := by
      rw [List.map_snd_zip]; omega
    simp only [e1, e2]
    rw [if_pos ⟨hnd, hlast⟩]

theorem Chain.set_of_not_mem {heap p as xs} (h : Chain heap p as xs) (b : Nat)
    (c : Option QueueNode) (hb : b ∉ as) : Chain (heap.set b c) p as xs := by
  induction h with
  | nil => exact Chain.nil
  | cons a x nx as xs h1 _ ih =>
    have hne : b ≠ a := fun e => hb (by simp [e])
    refine Chain.cons a x nx as xs ?_ (ih (fun hm => hb (List.mem_cons_of_mem _ hm)))
    rw [List.getElem?_set_ne hne]
    exact h1

theorem Chain.cell_of_mem {heap p as xs} (h : Chain heap p as xs) :
    ∀ r ∈ as, ∃ nd, heap[r]? = some (some nd) := by
  induction h with
  | nil => simp
  | cons a x nx as xs h1 _ ih =>
    intro r hr
    rcases List.mem_cons.1 hr with rfl | hm
    · exact ⟨_, h1⟩
    · exact ih r hm

theorem Chain.append_cell {heap p as xs} (h : Chain heap p as xs) (c : Option QueueNode) :
    Chain (heap ++ [c]) p as xs := by
  induction h with
  | nil => exact Chain.nil
  | cons a x nx as xs h1 _ ih =>
    refine Chain.cons a x nx as xs ?_ ih
    have hlt : a < heap.length := by
      by_contra hlt
      rw [List.getElem?_eq_none (by omega)] at h1
      cases h1
    rw [List.getElem?_append_left hlt]
    exact h1

/-- Linking a new last node behind the node at `r`. -/
theorem Chain.snoc {heap p as xs} (h : Chain heap p as xs) (v : Int) :
    ∀ r nd, as.getLast? = some r → as.Nodup → heap[r]? = some (some nd) →
      Chain ((heap ++ [some (QueueNode.mk v none)]).set r
          (some { nd with next := some heap.length }))
        p (as ++ [heap.length]) (xs ++ [v]) := by
  induction h with
  | nil => intro r nd hl; simp at hl
  | cons a x nx as xs h1 hc ih =>
    intro r nd hl hnd hr
    have hrlt : r < heap.length := by
      by_contra hlt
      rw [List.getElem?_eq_none (by omega)] at hr
      cases hr
    have hnew : ((heap ++ [some (QueueNode.mk v none)]).set r
          (some { nd with next := some heap.length }))[heap.length]?
        = some (some (QueueNode.mk v none)) := by
      rw [List.getElem?_set_ne (by omega)]
      simp
    cases as with
    | nil =>
      cases hc
      simp at hl
      subst hl
      rw [h1] at hr
      cases hr
      refine Chain.cons a x (some heap.length) [heap.length] [v] ?_ ?_
      · rw [List.getElem?_set_self (by simp; omega)]
      · exact Chain.cons heap.length v none [] [] hnew Chain.nil
    | cons a2 as2 =>
      have hl2 : (a2 :: as2).getLast? = some r := by
        simpa [List.getLast?_cons_cons] using hl
      have hmem : r ∈ a2 :: as2 := List.mem_of_getLast?_eq_some hl2
      have hne : r ≠ a := by
        rintro rfl
        exact (List.nodup_cons.1 hnd).1 hmem
      refine Chain.cons a x nx _ _ ?_ (ih r nd hl2 (List.nodup_cons.1 hnd).2 hr)
      rw [List.getElem?_set_ne hne, List.getElem?_append_left]
      · exact h1
      · by_contra hlt
        rw [List.getElem?_eq_none (by omega)] at h1
        cases h1

theorem createQueue_rep : createQueue.Rep [] :=
  ⟨[], Chain.nil, List.nodup_nil, rfl⟩

theorem Queue.Rep.front_none_iff {q : Queue} {xs : List Int} (h : q.Rep xs) :
    q.front = none ↔ xs = [] := by
  obtain ⟨as, hc, _, _⟩ := h
  exact hc.nil_iff

theorem enqueue_rep {q : Queue} {xs : List Int} (h : q.Rep xs) (v : Int) :
    ∃ q1, enqueue q v = some q1 ∧ q1.Rep (xs ++ [v]) ∧ q1.heap.length = q.heap.length + 1 := by
  obtain ⟨as, hc, hnd, hlast⟩ := h
  obtain ⟨heap, front, rear⟩ := q
  dsimp only at hc hlast ⊢
  cases hc with
  | nil =>
    simp only [List.getLast?_nil] at hlast
    refine ⟨{ heap := heap ++ [some (QueueNode.mk v none)],
              rear := some heap.length, front := some heap.length }, ?_, ?_, by simp⟩
    · simp [enqueue, ← hlast]
    · refine ⟨[heap.length], ?_, by simp, by simp⟩
      exact Chain.cons _ v none [] [] (by simp) Chain.nil
  | cons a x nx as2 xs2 h1 hc2 =>
    have hc : Chain heap (some a) (a :: as2) (x :: xs2) := Chain.cons a x nx as2 xs2 h1 hc2
    obtain ⟨r, hr⟩ : ∃ r, (a :: as2).getLast? = some r := by
      cases hgl : (a :: as2).getLast? with
      | none => simp at hgl
      | some r => exact ⟨r, rfl⟩
    have hrm : r ∈ a :: as2 := List.mem_of_getLast?_eq_some hr
    have hrlt : r < heap.length := hc.addr_lt r hrm
    obtain ⟨nd, hnd2⟩ := hc.cell_of_mem r hrm
    refine ⟨{ heap := (heap ++ [some (QueueNode.mk v none)]).set r
                (some { nd with next := some heap.length }),
              rear := some heap.length, front := some a }, ?_, ?_, by simp⟩
    · have e : (heap ++ [some (QueueNode.mk v none)])[r]? = some (some nd) := by
        rw [List.getElem?_append_left hrlt]; exact hnd2
      simp [enqueue, ← hlast, hr, e]
    · refine ⟨(a :: as2) ++ [heap.length], hc.snoc v r nd hr hnd hnd2, ?_,
        List.getLast?_concat _⟩
      rw [List.nodup_append]
      refine ⟨hnd, by simp, ?_⟩
      intro b hb hb2
      simp at hb2
      subst hb2
      exact absurd (hc.addr_lt _ hb) (lt_irrefl _)

theorem dequeue_rep {q : Queue} {x : Int} {xs : List Int} (h : q.Rep (x :: xs)) :
    ∃ q1, dequeue q = some (x, q1) ∧ q1.Rep xs ∧ q1.heap.length = q.heap.length := by
  obtain ⟨as, hc, hnd, hlast⟩ := h
  obtain ⟨heap, front, rear⟩ := q
  dsimp only at hc hlast ⊢
  cases hc with
  | cons a x nx as2 xs2 h1 hc2 =>
    refine ⟨{ heap := heap.set a none, front := nx,
              rear := if nx = none then none else rear }, ?_, ?_, by simp⟩
    · simp [dequeue, h1]
    · refine ⟨as2, hc2.set_of_not_mem a none (List.nodup_cons.1 hnd).1,
        (List.nodup_cons.1 hnd).2, ?_⟩
      cases hc2 with
      | nil => simp
      | cons a3 x3 nx3 as3 xs3 _ _ =>
        simp only [reduceCtorEq, ↓reduceIte]
        rw [← hlast, List.getLast?_cons_cons]

theorem dequeue_empty (q : Queue) (h : q.front = none) : dequeue q = some (-1, q) := by
  simp [dequeue, h]

theorem enqueueAll_rep {q : Queue} {xs : List Int} (h : q.Rep xs) (ys : List Int) :
    ∃ q1, enqueueAll q ys = some q1 ∧ q1.Rep (xs ++ ys) := by
  induction ys generalizing q xs with
  | nil => exact ⟨q, rfl, by simpa using h⟩
  | cons y ys ih =>
    obtain ⟨q1, h1, hr, _⟩ := enqueue_rep h y
    obtain ⟨q2, h2, hr2⟩ := ih hr
    exact ⟨q2, by simp [enqueueAll, h1, h2], by simpa using hr2⟩

theorem dequeueN_rep {q : Queue} (xs : List Int) (h : q.Rep xs) :
    ∃ q1, dequeueN q xs.length = some (xs, q1) ∧ q1.Rep [] := by
  induction xs generalizing q with
  | nil => exact ⟨q, rfl, h⟩
  | cons x xs ih =>
    obtain ⟨q1, h1, hr, _⟩ := dequeue_rep h
    obtain ⟨q2, h2, hr2⟩ := ih hr
    exact ⟨q2, by simp [dequeueN, h1, h2], hr2⟩

/-! ## The queue is FIFO -/

/-- C9: the queue is strictly FIFO.  For a queue `q` whose list of values from
front to rear is `xs`: `enqueue q v` succeeds and the list becomes `xs ++ [v]`;
when `xs = x :: rest`, `dequeue q` returns `x` and the list becomes `rest`; and
enqueueing any list `ys` in order onto a new queue, then dequeuing `ys.length`
times, returns `ys` in the same order and leaves the queue empty. -/
theorem queue_fifo (q : Queue) (xs : List Int) (h : q.toList = some xs) :
    (∀ v, ∃ q1, enqueue q v = some q1 ∧ q1.toList = some (xs ++ [v])) ∧
    (∀ x rest, xs = x :: rest → ∃ q1, dequeue q = some (x, q1) ∧ q1.toList = some rest) ∧
    (∀ ys : List Int, ∃ q1 q2, enqueueAll createQueue ys = some q1 ∧ q1.toList = some ys ∧
      dequeueN q1 ys.length = some (ys, q2) ∧ q2.toList = some [] ∧ q2.front = none) := by
  have hr := (Queue.toList_iff_rep q xs).1 h
  refine ⟨?_, ?_, ?_⟩
  · intro v
    obtain ⟨q1, h1, hr1, _⟩ := enqueue_rep hr v
    exact ⟨q1, h1, (Queue.toList_iff_rep _ _).2 hr1⟩
  · rintro x rest rfl
    obtain ⟨q1, h1, hr1, _⟩ := dequeue_rep hr
    exact ⟨q1, h1, (Queue.toList_iff_rep _ _).2 hr1⟩
  · intro ys
    obtain ⟨q1, h1, hr1⟩ := enqueueAll_rep createQueue_rep ys
    simp only [List.nil_append] at hr1
    obtain ⟨q2, h2, hr2⟩ := dequeueN_rep ys hr1
    exact ⟨q1, q2, h1, (Queue.toList_iff_rep _ _).2 hr1, h2,
      (Queue.toList_iff_rep _ _).2 hr2, hr2.front_none_iff.2 rfl⟩

/-- Witness for C9: the queue holding `5, 7`, built by two `enqueue` calls. -/
theorem queue_fifo_witness :
    queue57.toList
      = some [5, 7] ∧
    ((∀ v, ∃ q1, enqueue queue57 v = some q1 ∧ q1.toList = some ([5, 7] ++ [v])) ∧
    (∀ x rest, [5, 7] = x :: rest → ∃ q1, dequeue queue57 = some (x, q1) ∧ q1.toList = some rest) ∧
    (∀ ys : List Int, ∃ q1 q2, enqueueAll createQueue ys = some q1 ∧ q1.toList = some ys ∧
      dequeueN q1 ys.length = some (ys, q2) ∧ q2.toList = some [] ∧ q2.front = none)) :=
  ⟨by decide, queue_fifo _ _ (by decide)⟩

/-- C10: `dequeue` on an empty queue (`front` is `NULL`) returns the sentinel
`-1` and leaves the queue unchanged; on a non-empty queue whose values are all
`≥ 0` it succeeds and never returns `-1`. -/
theorem dequeue_sentinel (q : Queue) (xs : List Int) :
    (q.front = none → dequeue q = some (-1, q)) ∧
    (q.toList = some xs → xs ≠ [] → (∀ x ∈ xs, 0 ≤ x) →
      ∃ v q1, dequeue q = some (v, q1) ∧ v ≠ -1) := by
  refine ⟨dequeue_empty q, ?_⟩
  intro h hne hpos
  have hr := (Queue.toList_iff_rep q xs).1 h
  cases xs with
  | nil => exact absurd rfl hne
  | cons x rest =>
    obtain ⟨q1, h1, _, _⟩ := dequeue_rep hr
    refine ⟨x, q1, h1, ?_⟩
    have := hpos x (List.mem_cons_self _ _)
    omega

/-- Witness for C10: the new queue, and the queue holding `5, 7`. -/
theorem dequeue_sentinel_witness :
    (createQueue.front = none ∧ dequeue createQueue = some (-1, createQueue)) ∧
    (queue57.toList
        = some [5, 7] ∧ ([5, 7] : List Int) ≠ [] ∧ (∀ x ∈ ([5, 7] : List Int), 0 ≤ x) ∧
      ∃ v q1, dequeue queue57 = some (v, q1) ∧ v ≠ -1) :=
  ⟨⟨rfl, (dequeue_sentinel createQueue []).1 rfl⟩,
   by decide, by decide, by decide,
   (dequeue_sentinel _ [5, 7]).2 (by decide) (by decide) (by decide)⟩

/-! ## Arrays -/

theorem readAt_writeAt_self {α : Type} {arr arr1 : List α} {i : Int} {v : α}
    (h : writeAt arr i v = some arr1) : readAt arr1 i = some v := by
  unfold writeAt at h
  split at h
  · rename_i hc
    cases h
    simp [readAt, hc.1, hc.2]
  · cases h

theorem readAt_writeAt_ne {α : Type} {arr arr1 : List α} {i j : Int} {v : α}
    (h : writeAt arr i v = some arr1) (hne : j ≠ i) : readAt arr1 j = readAt arr j := by
  unfold writeAt at h
  split at h
  · rename_i hc
    cases h
    unfold readAt
    split
    · rename_i hj
      rw [List.getElem?_set_ne]
      intro e
      apply hne
      have := hc.1
      omega
    · rfl
  · cases h

theorem writeAt_of_readAt {α : Type} {arr : List α} {i : Int} {x : α} (v : α)
    (h : readAt arr i = some x) : ∃ arr1, writeAt arr i v = some arr1 := by
  unfold readAt at h
  split at h
  · rename_i hi
    have hlt : i.toNat < arr.length := by
      by_contra hlt
      rw [List.getElem?_eq_none (by omega)] at h
      cases h
    exact ⟨arr.set i.toNat v, by simp [writeAt, hi, hlt]⟩
  · cases h

theorem readAt_isSome_of_lt {α : Type} (arr : List α) {i : Int} (h0 : 0 ≤ i)
    (h1 : i < arr.length) : ∃ x, readAt arr i = some x := by
  have hlt : i.toNat < arr.length := by omega
  exact ⟨arr[i.toNat], by simp [readAt, h0, List.getElem?_eq_getElem hlt]⟩

theorem writeAt_length {α : Type} {arr arr1 : List α} {i : Int} {v : α}
    (h : writeAt arr i v = some arr1) : arr1.length = arr.length := by
  unfold writeAt at h
  split at h
  · cases h; simp
  · cases h

/-! ## Graph construction -/

theorem addEdge_spec {g : Graph} {src : Int} {old : List Int} (dest : Int)
    (h : g.adj src = some old) :
    ∃ g1, addEdge g src dest = some g1 ∧ g1.adj src = some (dest :: old) ∧
      (∀ p, p ≠ src → g1.adj p = g.adj p) ∧ g1.numPages = g.numPages ∧ g1.urls = g.urls := by
  have hr : ∃ x, readAt g.adjList src = some x := by
    unfold Graph.adj at h
    cases hx : readAt g.adjList src with
    | none => rw [hx] at h; cases h
    | some x => exact ⟨x, rfl⟩
  obtain ⟨x, hx⟩ := hr
  obtain ⟨adj1, hw⟩ := writeAt_of_readAt (some (dest :: old)) hx
  refine ⟨{ g with adjList := adj1 }, ?_, ?_, ?_, rfl, rfl⟩
  · simp [addEdge, h, createGraphNode, GraphNode.chain, hw]
  · simp [Graph.adj, readAt_writeAt_self hw]
  · intro p hp
    simp [Graph.adj, readAt_writeAt_ne hw hp]

theorem createGraphLoop_spec : ∀ (m s : Nat) (g : Graph), g.adjList.length = MAX_PAGES →
    g.urls.length = MAX_PAGES → s + m ≤ MAX_PAGES →
    ∃ g1, createGraphLoop g (List.range' s m) = some g1 ∧ g1.numPages = g.numPages ∧
      g1.adjList.length = MAX_PAGES ∧ g1.urls.length = MAX_PAGES ∧
      (∀ i : Int, (i < s ∨ (s + m : Nat) ≤ i) → g1.adj i = g.adj i ∧ g1.url i = g.url i) ∧
      (∀ i : Int, s ≤ i → i < (s + m : Nat) →
        g1.adj i = some [] ∧ g1.url i = some (defaultUrl MAX_URL_LEN i)) := by
  intro m
  induction m with
  | zero =>
    intro s g h1 h2 _
    refine ⟨g, rfl, rfl, h1, h2, fun i _ => ⟨rfl, rfl⟩, ?_⟩
    intro i hi hi2
    simp at hi2
    omega
  | succ m ih =>
    intro s g h1 h2 hs
    obtain ⟨x, hx⟩ := readAt_isSome_of_lt g.adjList (i := (s : Int)) (by omega)
      (by rw [h1]; exact_mod_cast (by omega : s < MAX_PAGES))
    obtain ⟨y, hy⟩ := readAt_isSome_of_lt g.urls (i := (s : Int)) (by omega)
      (by rw [h2]; exact_mod_cast (by omega : s < MAX_PAGES))
    obtain ⟨adj1, hw1⟩ := writeAt_of_readAt (some ([] : List Int)) hx
    obtain ⟨urls1, hw2⟩ := writeAt_of_readAt (some (defaultUrl MAX_URL_LEN s)) hy
    obtain ⟨g1, hg1, hn, hl1, hl2, hout, hin⟩ :=
      ih (s + 1) { g with adjList := adj1, urls := urls1 }
        (by rw [← h1]; exact writeAt_length hw1) (by rw [← h2]; exact writeAt_length hw2)
        (by omega)
    refine ⟨g1, ?_, hn, hl1, hl2, ?_, ?_⟩
    · simp [List.range', createGraphLoop, createGraphStep, hw1, hw2, hg1]
    · intro i hi
      have hne : i ≠ (s : Int) := by
        rcases hi with hi | hi
        · omega
        · push_cast at hi; omega
      obtain ⟨e1, e2⟩ := hout i (by
        rcases hi with hi | hi
        · left; push_cast; omega
        · right; push_cast at hi ⊢; omega)
      rw [e1, e2]
      simp [Graph.adj, Graph.url, readAt_writeAt_ne hw1 hne, readAt_writeAt_ne hw2 hne]
    · intro i hi hi2
      by_cases he : i = (s : Int)
      · subst he
        obtain ⟨e1, e2⟩ := hout (s : Int) (Or.inl (by push_cast; omega))
        rw [e1, e2]
        simp [Graph.adj, Graph.url, readAt_writeAt_self hw1, readAt_writeAt_self hw2]
      · exact hin i (by push_cast; omega) (by push_cast at hi2 ⊢; omega)

theorem createGraph_spec (n : Int) (h0 : 0 ≤ n) (h1 : n ≤ MAX_PAGES) :
    ∃ g, createGraph n = some g ∧ g.numPages = n ∧
      ∀ i : Int, 0 ≤ i → i < n →
        g.adj i = some [] ∧ g.url i = some (defaultUrl MAX_URL_LEN i) := by
  obtain ⟨g, hg, hn, _, _, _, hin⟩ := createGraphLoop_spec n.toNat 0 (allocGraph n)
    (by simp [allocGraph]) (by simp [allocGraph]) (by omega)
  refine ⟨g, ?_, hn, ?_⟩
  · rw [createGraph, List.range_eq_range']
    exact hg
  · intro i hi hi2
    exact hin i (by simpa using hi) (by push_cast; omega)

theorem addEdges_spec : ∀ (edges : List (Int × Int)) (g : Graph) (n : Int),
    (∀ p, 0 ≤ p → p < n → ∃ l, g.adj p = some l) →
    (∀ e ∈ edges, 0 ≤ e.1 ∧ e.1 < n) →
    ∃ g1, addEdges g edges = some g1 ∧ g1.numPages = g.numPages ∧ g1.urls = g.urls ∧
      ∀ p l, g.adj p = some l →
        g1.adj p = some (((edges.filter (fun e => e.1 = p)).map Prod.snd).reverse ++ l) := by
  intro edges
  induction edges with
  | nil =>
    intro g n _ _
    exact ⟨g, rfl, rfl, rfl, fun p l h => by simpa using h⟩
  | cons e edges ih =>
    intro g n hinit hr
    obtain ⟨src, dest⟩ := e
    have hs := hr (src, dest) (List.mem_cons_self _ _)
    obtain ⟨old, hold⟩ := hinit src hs.1 hs.2
    obtain ⟨g1, h1, hself, hother, hn1, hu1⟩ := addEdge_spec dest hold
    have hinit1 : ∀ p, 0 ≤ p → p < n → ∃ l, g1.adj p = some l := by
      intro p hp0 hp1
      by_cases hps : p = src
      · subst hps; exact ⟨_, hself⟩
      · rw [hother p hps]; exact hinit p hp0 hp1
    obtain ⟨g2, h2, hn2, hu2, hadj⟩ := ih g1 n hinit1
      (fun e he => hr e (List.mem_cons_of_mem _ he))
    refine ⟨g2, by simp [addEdges, h1, h2], by rw [hn2, hn1], by rw [hu2, hu1], ?_⟩
    intro p l hl
    by_cases hps : p = src
    · subst hps
      rw [hold] at hl
      cases hl
      rw [hadj p _ hself]
      simp [List.filter_cons]
    · rw [hadj p l (by rw [hother p hps]; exact hl)]
      have : ¬ src = p := fun e => hps e.symm
      simp [List.filter_cons, this]

/-- C7: when page `src` holds the adjacency sequence `old`, `addEdge g src dest`
succeeds and page `src` then holds `dest :: old`, whatever `dest` is (equal to
`src`, or already in `old`): the sequence is one longer and `old` is kept as
its tail. -/
theorem addEdge_prepends (g : Graph) (src dest : Int) (old : List Int)
    (h : g.adj src = some old) :
    ∃ g1 new, addEdge g src dest = some g1 ∧ g1.adj src = some new ∧
      new = dest :: old ∧ new.length = old.length + 1 ∧ new.tail = old := by
  obtain ⟨g1, h1, h2, _⟩ := addEdge_spec dest h
  exact ⟨g1, dest :: old, h1, h2, rfl, rfl, rfl⟩

/-- Witness for C7: a self-loop that is also a duplicate, at page 0 of `loopGraph`. -/
theorem addEdge_prepends_witness :
    loopGraph.adj 0 = some [1, 0] ∧
    ∃ g1 new, addEdge loopGraph 0 0 = some g1 ∧ g1.adj 0 = some new ∧
      new = 0 :: [1, 0] ∧ new.length = [1, 0].length + 1 ∧ new.tail = [1, 0] :=
  ⟨by decide, addEdge_prepends loopGraph 0 0 [1, 0] (by decide)⟩

/-- C8: adding the in-range edges of a list, in order, to the graph made by
`createGraph n` leaves at each page `p` the reverse of the destinations of
the edges whose source is `p`. -/
theorem addEdges_reverse_order (n : Int) (edges : List (Int × Int))
    (h0 : 0 ≤ n) (h1 : n ≤ MAX_PAGES)
    (hr : ∀ e ∈ edges, (0 ≤ e.1 ∧ e.1 < n) ∧ (0 ≤ e.2 ∧ e.2 < n)) :
    ∃ g0 g, createGraph n = some g0 ∧ addEdges g0 edges = some g ∧
      ∀ p, 0 ≤ p → p < n →
        g.adj p = some ((edges.filter (fun e => e.1 = p)).map Prod.snd).reverse := by
  obtain ⟨g0, hg0, _, hinit⟩ := createGraph_spec n h0 h1
  obtain ⟨g, hg, _, _, hadj⟩ := addEdges_spec edges g0 n
    (fun p hp0 hp1 => ⟨[], (hinit p hp0 hp1).1⟩) (fun e he => (hr e he).1)
  refine ⟨g0, g, hg0, hg, ?_⟩
  intro p hp0 hp1
  simpa using hadj p [] (hinit p hp0 hp1).1

/-- Witness for C8: three pages, edges `0->1, 0->2, 0->1, 2->2`. -/
theorem addEdges_reverse_order_witness :
    ((0 : Int) ≤ 3 ∧ (3 : Int) ≤ MAX_PAGES ∧
      ∀ e ∈ [((0 : Int), (1 : Int)), (0, 2), (0, 1), (2, 2)],
        (0 ≤ e.1 ∧ e.1 < 3) ∧ (0 ≤ e.2 ∧ e.2 < 3)) ∧
    ∃ g0 g, createGraph 3 = some g0 ∧ addEdges g0 [(0, 1), (0, 2), (0, 1), (2, 2)] = some g ∧
      ∀ p, 0 ≤ p → p < 3 →
        g.adj p = some (([((0 : Int), (1 : Int)), (0, 2), (0, 1), (2, 2)].filter
          (fun e => e.1 = p)).map Prod.snd).reverse :=
  ⟨⟨by decide, by decide, by decide⟩,
   addEdges_reverse_order 3 [(0, 1), (0, 2), (0, 1), (2, 2)] (by decide) (by decide) (by decide)⟩

/-! ## Graph facts -/

theorem wf_page {g : Graph} (hg : g.WellFormed) {p : Int} (h0 : 0 ≤ p) (h1 : p < g.numPages) :
    ∃ url l, g.url p = some url ∧ g.adj p = some l ∧ ∀ j ∈ l, 0 ≤ j ∧ j < g.numPages := by
  obtain ⟨_, _, hall⟩ := hg
  have hm : p.toNat ∈ List.range g.numPages.toNat := by
    rw [List.mem_range]; omega
  obtain ⟨hu, ha, hj⟩ := hall p.toNat hm
  have e : ((p.toNat : Nat) : Int) = p := Int.toNat_of_nonneg h0
  rw [e] at hu ha hj
  cases hurl : g.url p with
  | none => rw [hurl] at hu; cases hu
  | some url =>
    cases hadj : g.adj p with
    | none => rw [hadj] at ha; cases ha
    | some l =>
      rw [hadj] at hj
      exact ⟨url, l, rfl, rfl, hj⟩

theorem visitedPages_append (a b : List Printed) :
    visitedPages (a ++ b) = visitedPages a ++ visitedPages b := by
  induction a with
  | nil => rfl
  | cons x a ih => cases x <;> simp [visitedPages, ih]

theorem reach_of_walk {g : Graph} {s p : Int} {n : Nat} (h : g.Walk s n p) : g.Reach s p := by
  induction h with
  | zero => exact Relation.ReflTransGen.refl
  | step _ he ih => exact Relation.ReflTransGen.tail ih he

theorem walk_of_reach {g : Graph} {s p : Int} (h : g.Reach s p) : ∃ n, g.Walk s n p := by
  induction h with
  | refl => exact ⟨0, Graph.Walk.zero⟩
  | tail _ he ih =>
    obtain ⟨n, hn⟩ := ih
    exact ⟨n + 1, Graph.Walk.step hn he⟩

theorem exists_dist (g : Graph) (s : Int) :
    ∃ d : Int → Nat, ∀ p n, g.Walk s n p → g.IsDist s p (d p) := by
  classical
  refine ⟨fun p => if h : ∃ n, g.Walk s n p then Nat.find h else 0, ?_⟩
  intro p n hw
  have h : ∃ n, g.Walk s n p := ⟨n, hw⟩
  simp only [dif_pos h]
  exact ⟨Nat.find_spec h, fun m hm => Nat.find_min' h hm⟩

theorem int_nodup_length_le {l : List Int} {n : Int} (h0 : 0 ≤ n) (hnd : l.Nodup)
    (hr : ∀ p ∈ l, 0 ≤ p ∧ p < n) : (l.length : Int) ≤ n := by
  have h1 : (l.map Int.toNat).Nodup := by
    refine List.Nodup.map_on ?_ hnd
    intro a ha b hb hab
    have := hr a ha
    have := hr b hb
    omega
  have h2 : ∀ a ∈ l.map Int.toNat, a < n.toNat := by
    intro a ha
    obtain ⟨p, hp, rfl⟩ := List.mem_map.1 ha
    have := hr p hp
    omega
  have h3 := nodup_length_le h1 h2
  rw [List.length_map] at h3
  omega

/-! ## Breadth-first traversal -/

theorem bfsScan_spec {g : Graph} {s : Int} {d : Int → Nat}
    (hd : ∀ p n, g.Walk s n p → g.IsDist s p (d p)) (u : Int) (O : List Int) :
    ∀ (ws visited : List Int) (q : Queue) (Q : List Int),
      q.Rep Q → BfsBase g s d visited (O ++ [u]) Q →
      (∀ w ∈ Q, d w ≤ d u + 1) →
      (∀ x m, g.Walk s m x → m ≤ d u → x ∈ (O ++ [u]) ++ Q) →
      (∀ w ∈ ws, (0 ≤ w ∧ w < g.numPages) ∧ g.Edge u w) →
      ∃ visited1 q1 Q1, bfsScan visited q ws = some (visited1, q1) ∧ q1.Rep Q1 ∧
        BfsBase g s d visited1 (O ++ [u]) Q1 ∧ (∀ w ∈ Q1, d w ≤ d u + 1) ∧
        (∀ x, x ∈ (O ++ [u]) ++ Q → x ∈ (O ++ [u]) ++ Q1) ∧
        (∀ w ∈ ws, w ∈ (O ++ [u]) ++ Q1) := by
  intro ws
  induction ws with
  | nil =>
    intro visited q Q hq hb hspan _ _
    exact ⟨visited, q, Q, rfl, hq, hb, hspan, fun x hx => hx, by simp⟩
  | cons w ws ih =>
    intro visited q Q hq hb hspan hlevel hws
    obtain ⟨⟨hw0, hw1⟩, hedge⟩ := hws w (List.mem_cons_self _ _)
    obtain ⟨f, hf, hfm⟩ := hb.flags w hw0 hw1
    have hws1 : ∀ w1 ∈ ws, (0 ≤ w1 ∧ w1 < g.numPages) ∧ g.Edge u w1 :=
      fun w1 h => hws w1 (List.mem_cons_of_mem _ h)
    by_cases hz : f = 0
    · have hnot : w ∉ (O ++ [u]) ++ Q := fun hm => (hfm.2 hm) hz
      obtain ⟨visited1, hw⟩ := writeAt_of_readAt (1 : Int) hf
      obtain ⟨q1, he, hq1, _⟩ := enqueue_rep hq w
      have hu_mem : u ∈ (O ++ [u]) ++ Q := by simp
      obtain ⟨mu, hmu⟩ := hb.reach u hu_mem
      have hdu := hd u mu hmu
      have hwalk : g.Walk s (d u + 1) w := Graph.Walk.step hdu.1 hedge
      have hdw := hd w _ hwalk
      have hdw_le : d w ≤ d u + 1 := hdw.2 _ hwalk
      have hdw_ge : d u + 1 ≤ d w := by
        by_contra hlt
        exact hnot (hlevel w (d w) hdw.1 (by omega))
      have hOu : ∀ a ∈ O ++ [u], d a ≤ d u := by
        intro a ha
        rcases List.mem_append.1 ha with ha | ha
        · have h1 := (List.pairwise_append.1 hb.sorted).1
          exact (List.pairwise_append.1 h1).2.2 a ha u (by simp)
        · simp at ha; subst ha; exact le_refl _
      have hb1 : BfsBase g s d visited1 (O ++ [u]) (Q ++ [w]) := by
        refine ⟨?_, ?_, ?_, ?_, ?_, ?_⟩
        · intro p hp0 hp1
          by_cases hpw : p = w
          · subst hpw
            exact ⟨1, readAt_writeAt_self hw, by simp⟩
          · obtain ⟨f1, hf1, hfm1⟩ := hb.flags p hp0 hp1
            refine ⟨f1, by rw [readAt_writeAt_ne hw hpw]; exact hf1, ?_⟩
            rw [hfm1]
            simp [hpw]
        · rw [← List.append_assoc, List.nodup_append]
          refine ⟨hb.nodup, by simp, ?_⟩
          intro b hb1 hb2
          simp at hb2
          subst hb2
          exact hnot hb1
        · intro p hp
          rw [← List.append_assoc, List.mem_append] at hp
          rcases hp with hp | hp
          · exact hb.inRange p hp
          · simp at hp; subst hp; exact ⟨hw0, hw1⟩
        · intro p hp
          rw [← List.append_assoc, List.mem_append] at hp
          rcases hp with hp | hp
          · exact hb.reach p hp
          · simp at hp; subst hp; exact ⟨_, hwalk⟩
        · rw [← List.append_assoc, List.pairwise_append]
          refine ⟨hb.sorted, List.pairwise_singleton _ _, ?_⟩
          intro a ha b hb1
          simp at hb1
          subst hb1
          rcases List.mem_append.1 ha with ha | ha
          · have := hOu a ha; omega
          · have := hspan a ha; omega
        · rw [← List.append_assoc]
          have hh := hb.head
          cases hS : (O ++ [u]) ++ Q with
          | nil => rw [hS] at hu_mem; simp at hu_mem
          | cons a S1 => rw [hS] at hh; simpa using hh
      have hspan1 : ∀ w1 ∈ Q ++ [w], d w1 ≤ d u + 1 := by
        intro w1 h
        rcases List.mem_append.1 h with h | h
        · exact hspan w1 h
        · simp at h; subst h; exact hdw_le
      have hlevel1 : ∀ x m, g.Walk s m x → m ≤ d u → x ∈ (O ++ [u]) ++ (Q ++ [w]) := by
        intro x m h1 h2
        rw [← List.append_assoc]
        exact List.mem_append_left _ (hlevel x m h1 h2)
      obtain ⟨visited2, q2, Q2, hscan, hq2, hb2, hspan2, hmono2, hin2⟩ :=
        ih visited1 q1 (Q ++ [w]) hq1 hb1 hspan1 hlevel1 hws1
      refine ⟨visited2, q2, Q2, ?_, hq2, hb2, hspan2, ?_, ?_⟩
      · simp [bfsScan, hf, hz, hw, he, hscan]
      · intro x hx
        apply hmono2
        rw [← List.append_assoc]
        exact List.mem_append_left _ hx
      · intro w1 hw1
        rcases List.mem_cons.1 hw1 with rfl | h
        · apply hmono2; simp
        · exact hin2 w1 h
    · have hin : w ∈ (O ++ [u]) ++ Q := hfm.1 hz
      obtain ⟨visited2, q2, Q2, hscan, hq2, hb2, hspan2, hmono2, hin2⟩ :=
        ih visited q Q hq hb hspan hlevel hws1
      refine ⟨visited2, q2, Q2, ?_, hq2, hb2, hspan2, hmono2, ?_⟩
      · simp [bfsScan, hf, hz, hscan]
      · intro w1 hw1
        rcases List.mem_cons.1 hw1 with rfl | h
        · exact hmono2 _ hin
        · exact hin2 w1 h

theorem bfsLoop_spec {g : Graph} {s : Int} {d : Int → Nat} (hg : g.WellFormed)
    (hd : ∀ p n, g.Walk s n p → g.IsDist s p (d p)) :
    ∀ (fuel : Nat) (visited : List Int) (q : Queue) (Q : List Int) (out : List Printed),
      q.Rep Q → BfsBase g s d visited (visitedPages out) Q →
      (∀ p ∈ visitedPages out, ∀ w, g.Edge p w → w ∈ visitedPages out ++ Q) →
      (∀ u Q1, Q = u :: Q1 → (∀ w ∈ Q, d w ≤ d u + 1) ∧
          ∀ x m, g.Walk s m x → m ≤ d u → x ∈ visitedPages out ++ Q) →
      g.numPages ≤ (((visitedPages out).length + fuel : Nat) : Int) →
      ∃ visited1 q1 out1, bfsLoop g fuel visited q out = some (visited1, q1, out1) ∧
        q1.Rep [] ∧ BfsBase g s d visited1 (visitedPages out1) [] ∧
        (∀ p ∈ visitedPages out1, ∀ w, g.Edge p w → w ∈ visitedPages out1) := by
  intro fuel
  induction fuel with
  | zero =>
    intro visited q Q out hq hb hclosed _ hfuel
    cases Q with
    | nil =>
      have hfr := hq.front_none_iff.2 rfl
      refine ⟨visited, q, out, by simp [bfsLoop, hfr], hq, hb, ?_⟩
      simpa using hclosed
    | cons u Q1 =>
      exfalso
      have h1 := int_nodup_length_le hg.1 hb.nodup hb.inRange
      simp at h1 hfuel
      omega
  | succ fuel ih =>
    intro visited q Q out hq hb hclosed hfront hfuel
    cases Q with
    | nil =>
      have hfr := hq.front_none_iff.2 rfl
      refine ⟨visited, q, out, by simp [bfsLoop, hfr], hq, hb, ?_⟩
      simpa using hclosed
    | cons u Q1 =>
      obtain ⟨a, hfr⟩ : ∃ a, q.front = some a := by
        cases hfr : q.front with
        | none => exact absurd (hq.front_none_iff.1 hfr) (by simp)
        | some a => exact ⟨a, rfl⟩
      obtain ⟨q1, hdq, hq1, _⟩ := dequeue_rep hq
      obtain ⟨hu0, hu1⟩ := hb.inRange u (by simp)
      obtain ⟨url, l, hurl, hadj, hl⟩ := wf_page hg hu0 hu1
      obtain ⟨hspan, hlevel⟩ := hfront u Q1 rfl
      have e : (visitedPages out ++ [u]) ++ Q1 = visitedPages out ++ u :: Q1 := by simp
      have hb1 : BfsBase g s d visited (visitedPages out ++ [u]) Q1 :=
        ⟨by rw [e]; exact hb.flags, by rw [e]; exact hb.nodup, by rw [e]; exact hb.inRange,
         by rw [e]; exact hb.reach, by rw [e]; exact hb.sorted, by rw [e]; exact hb.head⟩
      obtain ⟨visited1, q2, Q2, hscan, hq2, hb2, hspan2, hmono2, hin2⟩ :=
        bfsScan_spec hd u (visitedPages out) l visited q1 Q1 hq1 hb1
          (fun w hw => hspan w (List.mem_cons_of_mem _ hw))
          (by rw [e]; exact hlevel)
          (fun w hw => ⟨hl w hw, l, hadj, hw⟩)
      have eo : visitedPages (out ++ [Printed.visited u url]) = visitedPages out ++ [u] := by
        rw [visitedPages_append]; rfl
      have hclosed1 : ∀ p ∈ visitedPages out ++ [u], ∀ w, g.Edge p w →
          w ∈ (visitedPages out ++ [u]) ++ Q2 := by
        intro p hp w hw
        rcases List.mem_append.1 hp with hp | hp
        · apply hmono2
          rw [e]
          exact hclosed p hp w hw
        · simp at hp
          subst hp
          obtain ⟨l1, hl1, hw1⟩ := hw
          rw [hadj] at hl1
          cases hl1
          exact hin2 w hw1
      obtain ⟨visited3, q3, out3, hloop, hq3, hb3, hclosed3⟩ :=
        ih visited1 q2 Q2 (out ++ [Printed.visited u url]) hq2 (by rw [eo]; exact hb2)
          (by rw [eo]; exact hclosed1)
          (by
            rw [eo]
            intro u1 Q3 hQ
            have hu1mem : u1 ∈ Q2 := by rw [hQ]; simp
            have hle : d u ≤ d u1 :=
              (List.pairwise_append.1 hb2.sorted).2.2 u (by simp) u1 hu1mem
            refine ⟨fun w hw => by have := hspan2 w hw; omega, ?_⟩
            intro x m hwalk hm
            by_cases hmu : m ≤ d u
            · apply hmono2
              rw [e]
              exact hlevel x m hwalk hmu
            · have hu1le := hspan2 u1 hu1mem
              cases hwalk with
              | zero => omega
              | step hwa hea =>
                rename_i n a
                have han : n ≤ d u := by omega
                have hamem : a ∈ (visitedPages out ++ [u]) ++ Q2 := by
                  apply hmono2
                  rw [e]
                  exact hlevel a n hwa han
                have hda : d a ≤ n := (hd a n hwa).2 n hwa
                rcases List.mem_append.1 hamem with ha | ha
                · exact hclosed1 a ha x hea
                · exfalso
                  have hge : d u1 ≤ d a := by
                    rw [hQ] at ha
                    rcases List.mem_cons.1 ha with rfl | ha
                    · exact le_refl _
                    · have h2 := (List.pairwise_append.1 hb2.sorted).2.1
                      rw [hQ] at h2
                      exact (List.pairwise_cons.1 h2).1 a ha
                  omega)
          (by rw [eo]; simp at hfuel ⊢; omega)
      refine ⟨visited3, q3, out3, ?_, hq3, hb3, hclosed3⟩
      simp [bfsLoop, hfr, hdq, hurl, hadj, hscan, hloop]

theorem bfsLoop_mono {g : Graph} : ∀ (fuel : Nat) (visited : List Int) (q : Queue)
    (out : List Printed) (r : List Int × Queue × List Printed),
    bfsLoop g fuel visited q out = some r → bfsLoop g (fuel + 1) visited q out = some r := by
  intro fuel
  induction fuel with
  | zero =>
    intro visited q out r h
    rw [bfsLoop] at h
    rw [bfsLoop]
    cases hfr : q.front with
    | none => rw [hfr] at h; simpa using h
    | some a => rw [hfr] at h; simp at h
  | succ fuel ih =>
    intro visited q out r h
    rw [bfsLoop] at h
    rw [bfsLoop]
    cases hfr : q.front with
    | none => rw [hfr] at h; simpa using h
    | some a =>
      rw [hfr] at h
      simp only at h ⊢
      cases hdq : dequeue q with
      | none => rw [hdq] at h; simp at h
      | some pq =>
        obtain ⟨p, q1⟩ := pq
        rw [hdq] at h
        simp only at h ⊢
        cases hurl : g.url p with
        | none => rw [hurl] at h; simp at h
        | some url =>
          rw [hurl] at h
          simp only at h ⊢
          cases hadj : g.adj p with
          | none => rw [hadj] at h; simp at h
          | some l =>
            rw [hadj] at h
            simp only at h ⊢
            cases hscan : bfsScan visited q1 l with
            | none => rw [hscan] at h; simp at h
            | some vq =>
              obtain ⟨v1, q2⟩ := vq
              rw [hscan] at h
              simp only at h ⊢
              exact ih _ _ _ _ h

theorem bfsLoop_mono_le {g : Graph} {fuel fuel1 : Nat} (hle : fuel ≤ fuel1)
    {visited : List Int} {q : Queue} {out : List Printed} {r : List Int × Queue × List Printed}
    (h : bfsLoop g fuel visited q out = some r) : bfsLoop g fuel1 visited q out = some r := by
  induction hle with
  | refl => exact h
  | step _ ih => exact bfsLoop_mono _ _ _ _ _ ih

theorem freeQueue_empty (fuel : Nat) (q : Queue) (h : q.front = none) :
    freeQueue fuel q = some () := by
  cases fuel <;> simp [freeQueue, h]

/-- What the BFS loop invariant gives for the whole of `bfsTraversal`. -/
theorem bfs_master (g : Graph) (start : Int) (hg : g.WellFormed) (h0 : 0 ≤ start)
    (h1 : start < g.numPages) :
    ∃ out, (∀ fuel, g.numPages.toNat ≤ fuel → bfsTraversal fuel g start = some out) ∧
      (visitedPages out).Nodup ∧
      (∀ p ∈ visitedPages out, (0 ≤ p ∧ p < g.numPages) ∧ g.Reach start p) ∧
      (∀ p, g.Reach start p → p ∈ visitedPages out) ∧
      (visitedPages out).head? = some start ∧
      ∃ d : Int → Nat, (∀ p n, g.Walk start n p → g.IsDist start p (d p)) ∧
        (visitedPages out).Pairwise (fun a b => d a ≤ d b) := by
  obtain ⟨d, hd⟩ := exists_dist g start
  obtain ⟨url, l, hurl, hadj, hl⟩ := wf_page hg h0 h1
  obtain ⟨q1, he, hq1, _⟩ := enqueue_rep createQueue_rep start
  have hn := hg.2.1
  obtain ⟨f0, hf0⟩ := readAt_isSome_of_lt (List.replicate MAX_PAGES (0 : Int))
    (i := start) h0 (by simp; omega)
  obtain ⟨visited1, hw⟩ := writeAt_of_readAt (1 : Int) hf0
  have hds : d start = 0 := by
    have := (hd start 0 Graph.Walk.zero).2 0 Graph.Walk.zero
    omega
  have hb : BfsBase g start d visited1 (visitedPages [Printed.bfsBanner start url]) [start] := by
    refine ⟨?_, by simp [visitedPages], ?_, ?_, by simp [visitedPages], by simp [visitedPages]⟩
    · intro p hp0 hp1
      by_cases hps : p = start
      · subst hps
        exact ⟨1, readAt_writeAt_self hw, by simp [visitedPages]⟩
      · refine ⟨0, ?_, by simp [visitedPages, hps]⟩
        rw [readAt_writeAt_ne hw hps]
        have hlt : p.toNat < MAX_PAGES := by omega
        simp [readAt, hp0, hlt]
    · intro p hp
      simp [visitedPages] at hp
      subst hp
      exact ⟨h0, h1⟩
    · intro p hp
      simp [visitedPages] at hp
      subst hp
      exact ⟨0, Graph.Walk.zero⟩
  obtain ⟨visited2, q2, out, hloop, hq2, hb2, hclosed⟩ :=
    bfsLoop_spec hg hd g.numPages.toNat visited1 q1 [start] [Printed.bfsBanner start url]
      hq1 hb (by simp [visitedPages])
      (by
        intro u Q1 hQ
        cases hQ
        refine ⟨by simp, ?_⟩
        intro x m hwalk hm
        rw [hds] at hm
        have hm0 : m = 0 := by omega
        subst hm0
        cases hwalk
        simp [visitedPages])
      (by simp [visitedPages])
  have hnodup := hb2.nodup
  have hinr := hb2.inRange
  have hreach := hb2.reach
  have hsorted := hb2.sorted
  have hhead := hb2.head
  simp only [List.append_nil] at hnodup hinr hreach hsorted hhead
  refine ⟨out, ?_, hnodup, ?_, ?_, hhead, d, hd, hsorted⟩
  · intro fuel hfuel
    have hloop1 := bfsLoop_mono_le hfuel hloop
    simp [bfsTraversal, hurl, he, hw, hloop1, freeQueue_empty fuel q2 (hq2.front_none_iff.2 rfl)]
  · intro p hp
    obtain ⟨m, hm⟩ := hreach p hp
    exact ⟨hinr p hp, reach_of_walk hm⟩
  · intro p hp
    induction hp with
    | refl =>
      have hh := hhead
      cases ho : visitedPages out with
      | nil => rw [ho] at hh; simp at hh
      | cons a rest => rw [ho] at hh; simp at hh; subst hh; simp
    | tail _ hedge ih => exact hclosed _ ih _ hedge

/-- C1: on a well-formed graph and a start index in range, `bfsTraversal`
returns (for every fuel of at least `numPages` iterations, always the same
output); the pages of its `Visited:` lines contain no page twice, and a page
is among them exactly when it is reachable from `start` by zero or more edges. -/
theorem bfs_visits_reachable_once (g : Graph) (start : Int) (hg : g.WellFormed)
    (h0 : 0 ≤ start) (h1 : start < g.numPages) :
    ∃ out, (∀ fuel, g.numPages.toNat ≤ fuel → bfsTraversal fuel g start = some out) ∧
      (visitedPages out).Nodup ∧ ∀ p, p ∈ visitedPages out ↔ g.Reach start p := by
  obtain ⟨out, hrun, hnd, hsound, hcomplete, _⟩ := bfs_master g start hg h0 h1
  exact ⟨out, hrun, hnd, fun p => ⟨fun hp => (hsound p hp).2, hcomplete p⟩⟩

/-- Witness for C1: `loopGraph` (a cycle, a self-loop, an unreachable page) from page 0. -/
theorem bfs_visits_reachable_once_witness :
    loopGraph.WellFormed ∧ (0 : Int) ≤ 0 ∧ (0 : Int) < loopGraph.numPages ∧
    ∃ out, (∀ fuel, loopGraph.numPages.toNat ≤ fuel →
        bfsTraversal fuel loopGraph 0 = some out) ∧
      (visitedPages out).Nodup ∧ ∀ p, p ∈ visitedPages out ↔ loopGraph.Reach 0 p :=
  ⟨by decide, by decide, by decide,
   bfs_visits_reachable_once loopGraph 0 (by decide) (by decide) (by decide)⟩

/-- C2: on a well-formed graph and a start index in range, `bfsTraversal`
prints `start` first, every printed page `p` has a shortest-path distance
`d p` from `start`, and whenever `a` is printed before `b`, `d a ≤ d b`. -/
theorem bfs_breadth_first_order (g : Graph) (start : Int) (hg : g.WellFormed)
    (h0 : 0 ≤ start) (h1 : start < g.numPages) :
    ∃ out, (∀ fuel, g.numPages.toNat ≤ fuel → bfsTraversal fuel g start = some out) ∧
      (visitedPages out).head? = some start ∧
      ∃ d : Int → Nat, (∀ p ∈ visitedPages out, g.IsDist start p (d p)) ∧
        (visitedPages out).Pairwise (fun a b => d a ≤ d b) := by
  obtain ⟨out, hrun, _, hsound, _, hhead, d, hd, hsorted⟩ := bfs_master g start hg h0 h1
  refine ⟨out, hrun, hhead, d, ?_, hsorted⟩
  intro p hp
  obtain ⟨n, hn⟩ := walk_of_reach (hsound p hp).2
  exact hd p n hn

/-- Witness for C2: `loopGraph` from page 1. -/
theorem bfs_breadth_first_order_witness :
    loopGraph.WellFormed ∧ (0 : Int) ≤ 1 ∧ (1 : Int) < loopGraph.numPages ∧
    ∃ out, (∀ fuel, loopGraph.numPages.toNat ≤ fuel →
        bfsTraversal fuel loopGraph 1 = some out) ∧
      (visitedPages out).head? = some 1 ∧
      ∃ d : Int → Nat, (∀ p ∈ visitedPages out, loopGraph.IsDist 1 p (d p)) ∧
        (visitedPages out).Pairwise (fun a b => d a ≤ d b) :=
  ⟨by decide, by decide, by decide,
   bfs_breadth_first_order loopGraph 1 (by decide) (by decide) (by decide)⟩

/-! ## Depth-first traversal -/

theorem flags_write {g : Graph} {V V1 S : List Int} {v : Int} (hf : Flags g V S)
    (hw : writeAt V v 1 = some V1) : Flags g V1 (S ++ [v]) := by
  constructor
  · intro p hp0 hp1
    by_cases hpv : p = v
    · subst hpv; exact ⟨1, readAt_writeAt_self hw⟩
    · rw [readAt_writeAt_ne hw hpv]; exact hf.readable p hp0 hp1
  · intro p f hr
    by_cases hpv : p = v
    · subst hpv
      rw [readAt_writeAt_self hw] at hr
      cases hr
      simp
    · rw [readAt_writeAt_ne hw hpv] at hr
      rw [hf.marks p f hr]
      simp [hpv]

theorem dfsScan_spec {g : Graph}
    (call : Int → List Int → Option (List Int × List Printed)) (U : List Int)
    (hcall : ∀ w V S, 0 ≤ w → w < g.numPages → Flags g V S → w ∉ S →
      (∀ p, 0 ≤ p → p < g.numPages → p ∉ S → p ∈ U) →
      ∃ V1 out, call w V = some (V1, out) ∧ Flags g V1 (S ++ visitedPages out) ∧
        g.PreOrder S w (visitedPages out)) :
    ∀ (ws V S : List Int) (out0 : List Printed),
      (∀ w ∈ ws, 0 ≤ w ∧ w < g.numPages) → Flags g V S →
      (∀ p, 0 ≤ p → p < g.numPages → p ∉ S → p ∈ U) →
      ∃ V1 outs, dfsScan call ws V out0 = some (V1, out0 ++ outs) ∧
        Flags g V1 (S ++ visitedPages outs) ∧ g.Blocks S ws (visitedPages outs) := by
  intro ws
  induction ws with
  | nil =>
    intro V S out0 _ hfl _
    exact ⟨V, [], by simp [dfsScan], by simpa [visitedPages] using hfl, Graph.Blocks.nil⟩
  | cons w ws ih =>
    intro V S out0 hws hfl hcov
    obtain ⟨hw0, hw1⟩ := hws w (List.mem_cons_self _ _)
    have hws1 : ∀ w1 ∈ ws, 0 ≤ w1 ∧ w1 < g.numPages :=
      fun w1 h => hws w1 (List.mem_cons_of_mem _ h)
    obtain ⟨f, hf⟩ := hfl.readable w hw0 hw1
    by_cases hz : f = 0
    · have hnot : w ∉ S := fun hm => ((hfl.marks w f hf).2 hm) hz
      obtain ⟨V1, out1, hc, hfl1, hpre⟩ := hcall w V S hw0 hw1 hfl hnot hcov
      obtain ⟨ws1, sub, hadj, ho1, hblk⟩ := hpre
      obtain ⟨V2, outs2, hs, hfl2, hblk2⟩ := ih V1 (S ++ visitedPages out1) (out0 ++ out1)
        hws1 hfl1 (fun p h0 h1 hn => hcov p h0 h1 (fun hm => hn (List.mem_append_left _ hm)))
      refine ⟨V2, out1 ++ outs2, ?_, ?_, ?_⟩
      · simp [dfsScan, hf, hz, hc, hs]
      · rw [visitedPages_append, ← List.append_assoc]; exact hfl2
      · rw [visitedPages_append, ho1]
        rw [ho1] at hblk2
        exact Graph.Blocks.visit hnot hadj hblk hblk2
    · have hin : w ∈ S := (hfl.marks w f hf).1 hz
      obtain ⟨V2, outs2, hs, hfl2, hblk2⟩ := ih V S out0 hws1 hfl hcov
      exact ⟨V2, outs2, by simp [dfsScan, hf, hz, hs], hfl2, Graph.Blocks.skip hin hblk2⟩

theorem dfsTraversal_spec {g : Graph} (hg : g.WellFormed) :
    ∀ (fuel : Nat) (v : Int) (V S U : List Int), 0 ≤ v → v < g.numPages → Flags g V S →
      v ∉ S → (∀ p, 0 ≤ p → p < g.numPages → p ∉ S → p ∈ U) → U.length ≤ fuel →
      ∃ V1 out, dfsTraversal g fuel v V = some (V1, out) ∧
        Flags g V1 (S ++ visitedPages out) ∧ g.PreOrder S v (visitedPages out) := by
  intro fuel
  induction fuel with
  | zero =>
    intro v V S U hv0 hv1 _ hnot hcov hlen
    have hm := hcov v hv0 hv1 hnot
    have := List.length_pos_of_mem hm
    omega
  | succ fuel ih =>
    intro v V S U hv0 hv1 hfl hnot hcov hlen
    obtain ⟨f, hf⟩ := hfl.readable v hv0 hv1
    obtain ⟨V1, hw⟩ := writeAt_of_readAt (1 : Int) hf
    obtain ⟨url, ws, hurl, hadj, hws⟩ := wf_page hg hv0 hv1
    have hfl1 := flags_write hfl hw
    have hmem := hcov v hv0 hv1 hnot
    have hcov1 : ∀ p, 0 ≤ p → p < g.numPages → p ∉ S ++ [v] → p ∈ U.erase v := by
      intro p hp0 hp1 hn
      have hpv : p ≠ v := fun e => hn (by simp [e])
      exact (List.mem_erase_of_ne hpv).2
        (hcov p hp0 hp1 (fun hm => hn (List.mem_append_left _ hm)))
    have hlen1 : (U.erase v).length ≤ fuel := by
      rw [List.length_erase_of_mem hmem]
      omega
    obtain ⟨V2, outs, hs, hfl2, hblk⟩ :=
      dfsScan_spec (dfsTraversal g fuel) (U.erase v)
        (fun w V S hw0 hw1 hflw hnw hcw => ih w V S (U.erase v) hw0 hw1 hflw hnw hcw hlen1)
        ws V1 (S ++ [v]) [Printed.visited v url] hws hfl1 hcov1
    have eo : visitedPages ([Printed.visited v url] ++ outs) = v :: visitedPages outs := by
      rw [visitedPages_append]; rfl
    refine ⟨V2, [Printed.visited v url] ++ outs, ?_, ?_, ws, visitedPages outs, hadj, eo, hblk⟩
    · simp [dfsTraversal, hw, hurl, hadj, hs]
    · rw [eo]
      simpa using hfl2

theorem dfsScan_mono {call call1 : Int → List Int → Option (List Int × List Printed)}
    (h : ∀ w V r, call w V = some r → call1 w V = some r) :
    ∀ (ws V : List Int) (out : List Printed) (r : List Int × List Printed),
      dfsScan call ws V out = some r → dfsScan call1 ws V out = some r := by
  intro ws
  induction ws with
  | nil => intro V out r hr; simpa [dfsScan] using hr
  | cons w ws ih =>
    intro V out r hr
    rw [dfsScan] at hr ⊢
    cases hf : readAt V w with
    | none => rw [hf] at hr; simp at hr
    | some f =>
      rw [hf] at hr
      simp only at hr ⊢
      by_cases hz : f = 0
      · rw [if_pos hz] at hr ⊢
        cases hc : call w V with
        | none => rw [hc] at hr; simp at hr
        | some r1 =>
          rw [hc] at hr
          rw [h w V r1 hc]
          exact ih _ _ _ hr
      · rw [if_neg hz] at hr ⊢
        exact ih _ _ _ hr

theorem dfsTraversal_mono {g : Graph} : ∀ (fuel : Nat) (v : Int) (V : List Int)
    (r : List Int × List Printed),
    dfsTraversal g fuel v V = some r → dfsTraversal g (fuel + 1) v V = some r := by
  intro fuel
  induction fuel with
  | zero => intro v V r h; simp [dfsTraversal] at h
  | succ fuel ih =>
    intro v V r h
    rw [dfsTraversal] at h ⊢
    cases hw : writeAt V v 1 with
    | none => rw [hw] at h; simp at h
    | some V1 =>
      rw [hw] at h
      simp only at h ⊢
      cases hurl : g.url v with
      | none => rw [hurl] at h; simp at h
      | some url =>
        rw [hurl] at h
        simp only at h ⊢
        cases hadj : g.adj v with
        | none => rw [hadj] at h; simp at h
        | some ws =>
          rw [hadj] at h
          simp only at h ⊢
          exact dfsScan_mono (fun w V r => ih w V r) _ _ _ _ h

theorem dfsTraversal_mono_le {g : Graph} {fuel fuel1 : Nat} (hle : fuel ≤ fuel1)
    {v : Int} {V : List Int} {r : List Int × List Printed}
    (h : dfsTraversal g fuel v V = some r) : dfsTraversal g fuel1 v V = some r := by
  induction hle with
  | refl => exact h
  | step _ ih => exact dfsTraversal_mono _ _ _ _ ih

theorem blocks_fresh {g : Graph} {seen ws out : List Int} (h : g.Blocks seen ws out) :
    out.Nodup ∧ ∀ p ∈ out, p ∉ seen := by
  induction h with
  | nil => simp
  | skip _ _ ih => exact ih
  | @visit seen w ws ws1 sub out hw _ _ _ ih1 ih2 =>
    obtain ⟨hn1, hf1⟩ := ih1
    obtain ⟨hn2, hf2⟩ := ih2
    have hwsub : w ∉ sub := fun hm => hf1 w hm (by simp)
    have hwout : w ∉ out := fun hm => hf2 w hm (by simp)
    constructor
    · rw [List.cons_append, List.nodup_cons]
      refine ⟨by simp [hwsub, hwout], ?_⟩
      rw [List.nodup_append]
      refine ⟨hn1, hn2, ?_⟩
      intro p hp1 hp2
      exact hf2 p hp2 (by simp [hp1])
    · intro p hp hs
      rcases List.mem_cons.1 hp with rfl | hp
      · exact hw hs
      · rcases List.mem_append.1 hp with hp | hp
        · exact hf1 p hp (List.mem_append_left _ hs)
        · exact hf2 p hp (List.mem_append_left _ hs)

theorem blocks_reach {g : Graph} {seen ws out : List Int} (h : g.Blocks seen ws out) :
    ∀ p ∈ out, ∃ w ∈ ws, g.Reach w p := by
  induction h with
  | nil => simp
  | skip _ _ ih =>
    intro p hp
    obtain ⟨w, hw, hr⟩ := ih p hp
    exact ⟨w, List.mem_cons_of_mem _ hw, hr⟩
  | @visit seen w ws ws1 sub out _ hadj _ _ ih1 ih2 =>
    intro p hp
    rcases List.mem_cons.1 hp with rfl | hp
    · exact ⟨p, List.mem_cons_self _ _, Relation.ReflTransGen.refl⟩
    · rcases List.mem_append.1 hp with hp | hp
      · obtain ⟨x, hx, hr⟩ := ih1 p hp
        exact ⟨w, List.mem_cons_self _ _, Relation.ReflTransGen.head ⟨ws1, hadj, hx⟩ hr⟩
      · obtain ⟨x, hx, hr⟩ := ih2 p hp
        exact ⟨x, List.mem_cons_of_mem _ hx, hr⟩

theorem blocks_closed {g : Graph} {seen ws out : List Int} (h : g.Blocks seen ws out) :
    (∀ w ∈ ws, w ∈ seen ++ out) ∧ ∀ p ∈ out, ∀ x, g.Edge p x → x ∈ seen ++ out := by
  induction h with
  | nil => simp
  | skip hw _ ih =>
    refine ⟨?_, ih.2⟩
    intro w1 hw1
    rcases List.mem_cons.1 hw1 with rfl | hw1
    · exact List.mem_append_left _ hw
    · exact ih.1 w1 hw1
  | @visit seen w ws ws1 sub out _ hadj _ _ ih1 ih2 =>
    have e1 : ∀ x, x ∈ (seen ++ [w]) ++ sub → x ∈ seen ++ (w :: sub ++ out) := by
      intro x hx
      simp at hx ⊢
      tauto
    have e2 : ∀ x, x ∈ (seen ++ w :: sub) ++ out → x ∈ seen ++ (w :: sub ++ out) := by
      intro x hx
      simp at hx ⊢
      tauto
    constructor
    · intro w1 hw1
      rcases List.mem_cons.1 hw1 with rfl | hw1
      · simp
      · exact e2 _ (ih2.1 w1 hw1)
    · intro p hp x hx
      rcases List.mem_cons.1 hp with rfl | hp
      · obtain ⟨l, hl, hxl⟩ := hx
        rw [hadj] at hl
        cases hl
        exact e1 _ (ih1.1 x hxl)
      · rcases List.mem_append.1 hp with hp | hp
        · exact e1 _ (ih1.2 p hp x hx)
        · exact e2 _ (ih2.2 p hp x hx)

/-- What a pre-order from an empty `seen` implies about the set of printed pages. -/
theorem preOrder_reachable {g : Graph} {start : Int} {out : List Int}
    (h : g.PreOrder [] start out) :
    out.Nodup ∧ out.head? = some start ∧ ∀ p, p ∈ out ↔ g.Reach start p := by
  obtain ⟨ws, sub, hadj, rfl, hblk⟩ := h
  simp only [List.nil_append] at hblk
  obtain ⟨hn, hf⟩ := blocks_fresh hblk
  obtain ⟨hc1, hc2⟩ := blocks_closed hblk
  refine ⟨?_, rfl, ?_⟩
  · rw [List.nodup_cons]
    exact ⟨fun hm => hf start hm (by simp), hn⟩
  · intro p
    constructor
    · intro hp
      rcases List.mem_cons.1 hp with rfl | hp
      · exact Relation.ReflTransGen.refl
      · obtain ⟨w, hw, hr⟩ := blocks_reach hblk p hp
        exact Relation.ReflTransGen.head ⟨ws, hadj, hw⟩ hr
    · intro hr
      induction hr with
      | refl => simp
      | @tail a b _ hedge ih =>
        rcases List.mem_cons.1 ih with rfl | ha
        · obtain ⟨l, hl, hbl⟩ := hedge
          rw [hadj] at hl
          cases hl
          simpa using hc1 b hbl
        · simpa using hc2 a ha b hedge

/-- What the DFS refinement gives for a call with an all-false `visited`. -/
theorem dfs_master (g : Graph) (start : Int) (visited : List Int) (hg : g.WellFormed)
    (h0 : 0 ≤ start) (h1 : start < g.numPages) (hlen : g.numPages ≤ visited.length)
    (hzero : ∀ f ∈ visited, f = 0) :
    ∃ visited1 out,
      (∀ fuel, g.numPages.toNat ≤ fuel →
        dfsTraversal g fuel start visited = some (visited1, out)) ∧
      Flags g visited1 (visitedPages out) ∧ g.PreOrder [] start (visitedPages out) := by
  have hfl : Flags g visited [] := by
    constructor
    · intro p hp0 hp1
      exact readAt_isSome_of_lt visited hp0 (by omega)
    · intro p f hr
      have hm : f ∈ visited := by
        unfold readAt at hr
        split at hr
        · exact List.getElem?_mem hr
        · cases hr
      simp [hzero f hm]
  obtain ⟨visited1, out, hrun, hfl1, hpre⟩ :=
    dfsTraversal_spec hg g.numPages.toNat start visited []
      ((List.range g.numPages.toNat).map (fun i : Nat => (i : Int))) h0 h1 hfl (by simp)
      (by
        intro p hp0 hp1 _
        rw [List.mem_map]
        exact ⟨p.toNat, by rw [List.mem_range]; omega, by omega⟩)
      (by simp)
  refine ⟨visited1, out, ?_, by simpa using hfl1, hpre⟩
  intro fuel hfuel
  exact dfsTraversal_mono_le hfuel hrun

/-- C3: on a well-formed graph, a start index in range and a `visited` array
(with a flag for every page) that is all false, `dfsTraversal` returns (for
every fuel of at least `numPages` nested calls, always the same result); the
pages of its `Visited:` lines contain no page twice, a page is among them
exactly when it is reachable from `start`, and the flags of the array on
return are set for exactly the pages reachable from `start`. -/
theorem dfs_visits_reachable_once (g : Graph) (start : Int) (visited : List Int)
    (hg : g.WellFormed) (h0 : 0 ≤ start) (h1 : start < g.numPages)
    (hlen : g.numPages ≤ visited.length) (hzero : ∀ f ∈ visited, f = 0) :
    ∃ visited1 out,
      (∀ fuel, g.numPages.toNat ≤ fuel →
        dfsTraversal g fuel start visited = some (visited1, out)) ∧
      (visitedPages out).Nodup ∧ (∀ p, p ∈ visitedPages out ↔ g.Reach start p) ∧
      (∀ p, 0 ≤ p → p < g.numPages → ∃ f, readAt visited1 p = some f) ∧
      ∀ p f, readAt visited1 p = some f → (f ≠ 0 ↔ g.Reach start p) := by
  obtain ⟨visited1, out, hrun, hfl, hpre⟩ := dfs_master g start visited hg h0 h1 hlen hzero
  obtain ⟨hnd, _, hreach⟩ := preOrder_reachable hpre
  refine ⟨visited1, out, hrun, hnd, hreach, hfl.readable, ?_⟩
  intro p f hr
  rw [hfl.marks p f hr]
  exact hreach p

/-- Witness for C3: `loopGraph` from page 0 with the all-false array of `main`. -/
theorem dfs_visits_reachable_once_witness :
    (loopGraph.WellFormed ∧ (0 : Int) ≤ 0 ∧ (0 : Int) < loopGraph.numPages ∧
      loopGraph.numPages ≤ (List.replicate MAX_PAGES (0 : Int)).length ∧
      ∀ f ∈ List.replicate MAX_PAGES (0 : Int), f = 0) ∧
    ∃ visited1 out,
      (∀ fuel, loopGraph.numPages.toNat ≤ fuel →
        dfsTraversal loopGraph fuel 0 (List.replicate MAX_PAGES 0) = some (visited1, out)) ∧
      (visitedPages out).Nodup ∧ (∀ p, p ∈ visitedPages out ↔ loopGraph.Reach 0 p) ∧
      (∀ p, 0 ≤ p → p < loopGraph.numPages → ∃ f, readAt visited1 p = some f) ∧
      ∀ p f, readAt visited1 p = some f → (f ≠ 0 ↔ loopGraph.Reach 0 p) :=
  ⟨⟨by decide, by decide, by decide, by decide, by decide⟩,
   dfs_visits_reachable_once loopGraph 0 (List.replicate MAX_PAGES 0)
     (by decide) (by decide) (by decide) (by decide) (by decide)⟩

/-- C4: on a well-formed graph, a start index in range and an all-false
`visited` array, the pages printed by `dfsTraversal` are in pre-order: the call
on a page prints that page first, then, for each neighbour in stored order
that is unvisited when its turn comes, the whole contiguous block printed by
the call on that neighbour, before the block of any later neighbour. -/
theorem dfs_preorder (g : Graph) (start : Int) (visited : List Int)
    (hg : g.WellFormed) (h0 : 0 ≤ start) (h1 : start < g.numPages)
    (hlen : g.numPages ≤ visited.length) (hzero : ∀ f ∈ visited, f = 0) :
    ∃ visited1 out,
      (∀ fuel, g.numPages.toNat ≤ fuel →
        dfsTraversal g fuel start visited = some (visited1, out)) ∧
      g.PreOrder [] start (visitedPages out) := by
  obtain ⟨visited1, out, hrun, _, hpre⟩ := dfs_master g start visited hg h0 h1 hlen hzero
  exact ⟨visited1, out, hrun, hpre⟩

/-- Witness for C4: `loopGraph` from page 2 with the all-false array of `main`. -/
theorem dfs_preorder_witness :
    (loopGraph.WellFormed ∧ (0 : Int) ≤ 2 ∧ (2 : Int) < loopGraph.numPages ∧
      loopGraph.numPages ≤ (List.replicate MAX_PAGES (0 : Int)).length ∧
      ∀ f ∈ List.replicate MAX_PAGES (0 : Int), f = 0) ∧
    ∃ visited1 out,
      (∀ fuel, loopGraph.numPages.toNat ≤ fuel →
        dfsTraversal loopGraph fuel 2 (List.replicate MAX_PAGES 0) = some (visited1, out)) ∧
      loopGraph.PreOrder [] 2 (visitedPages out) :=
  ⟨⟨by decide, by decide, by decide, by decide, by decide⟩,
   dfs_preorder loopGraph 2 (List.replicate MAX_PAGES 0)
     (by decide) (by decide) (by decide) (by decide) (by decide)⟩

/-! ## The sample graph of the driver -/

set_option maxRecDepth 100000 in
theorem sampleGraph_facts :
    sampleGraph.map (fun g => decide (g.WellFormed ∧ g.numPages = 10 ∧
      g.adj 0 = some [2, 1] ∧ g.adj 1 = some [4, 3] ∧ g.adj 2 = some [6, 5] ∧
      g.adj 3 = some [7] ∧ g.adj 4 = some [8] ∧ g.adj 5 = some [9] ∧
      g.adj 6 = some [] ∧ g.adj 7 = some [] ∧ g.adj 8 = some [] ∧ g.adj 9 = some []))
      = some true := by
  decide

set_option maxRecDepth 100000 in
theorem sampleGraph_bfs_run :
    sampleGraph.bind (fun g => (bfsTraversal 10 g 0).map visitedPages)
      = some [0, 2, 1, 6, 5, 4, 3, 9, 8, 7] := by
  decide

set_option maxRecDepth 100000 in
theorem sampleGraph_dfs_run :
    sampleGraph.bind (fun g =>
        (dfsTraversal g 10 0 (List.replicate MAX_PAGES 0)).map (fun r => visitedPages r.2))
      = some [0, 2, 6, 5, 9, 1, 4, 8, 3, 7] := by
  decide

/-- C5: the driver builds its 10-page sample graph (stored adjacency of pages
0, 1, 2 is `[2, 1]`, `[4, 3]`, `[6, 5]`: reverse insertion order), and
`bfsTraversal` from page 0 on it prints the pages in the order
0, 2, 1, 6, 5, 4, 3, 9, 8, 7. -/
theorem sample_bfs_order :
    ∃ g, sampleGraph = some g ∧
      (g.adj 0 = some [2, 1] ∧ g.adj 1 = some [4, 3] ∧ g.adj 2 = some [6, 5]) ∧
      ∃ out, (∀ fuel, 10 ≤ fuel → bfsTraversal fuel g 0 = some out) ∧
        visitedPages out = [0, 2, 1, 6, 5, 4, 3, 9, 8, 7] := by
  have hfacts := sampleGraph_facts
  have hev := sampleGraph_bfs_run
  cases hs : sampleGraph with
  | none => rw [hs] at hfacts; simp at hfacts
  | some g =>
    rw [hs] at hfacts hev
    simp only [Option.map_some', Option.some.injEq, decide_eq_true_eq] at hfacts
    simp only [Option.some_bind] at hev
    obtain ⟨hwf, hn, ha0, ha1, ha2, _⟩ := hfacts
    obtain ⟨out, hrun, _⟩ := bfs_master g 0 hwf (le_refl _) (by omega)
    refine ⟨g, rfl, ⟨ha0, ha1, ha2⟩, out, ?_, ?_⟩
    · intro fuel hf
      exact hrun fuel (by omega)
    · have h10 := hrun 10 (by omega)
      rw [h10] at hev
      simpa using hev

/-- C6: on the 10-page sample graph of the driver, `dfsTraversal` from page 0
with the all-false `visited` array of `main` prints the pages in the order
0, 2, 6, 5, 9, 1, 4, 8, 3, 7, and this sequence is a pre-order of the stored
adjacency lists. -/
theorem sample_dfs_order :
    ∃ g, sampleGraph = some g ∧
      ∃ visited1 out,
        (∀ fuel, 10 ≤ fuel →
          dfsTraversal g fuel 0 (List.replicate MAX_PAGES 0) = some (visited1, out)) ∧
        visitedPages out = [0, 2, 6, 5, 9, 1, 4, 8, 3, 7] ∧
        g.PreOrder [] 0 [0, 2, 6, 5, 9, 1, 4, 8, 3, 7] := by
  have hfacts := sampleGraph_facts
  have hev := sampleGraph_dfs_run
  cases hs : sampleGraph with
  | none => rw [hs] at hfacts; simp at hfacts
  | some g =>
    rw [hs] at hfacts hev
    simp only [Option.map_some', Option.some.injEq, decide_eq_true_eq] at hfacts
    simp only [Option.some_bind] at hev
    obtain ⟨hwf, hn, _⟩ := hfacts
    obtain ⟨visited1, out, hrun, _, hpre⟩ :=
      dfs_master g 0 (List.replicate MAX_PAGES 0) hwf (le_refl _) (by omega)
        (by simp [MAX_PAGES]; omega) (by simp)
    have h10 := hrun 10 (by omega)
    rw [h10] at hev
    have hout : visitedPages out = [0, 2, 6, 5, 9, 1, 4, 8, 3, 7] := by simpa using hev
    refine ⟨g, rfl, visited1, out, ?_, hout, ?_⟩
    · intro fuel hf
      exact hrun fuel (by omega)
    · rw [← hout]; exact hpre

/-! ## Graph creation and the mutators -/

theorem defaultUrl_eq (i : Int) (h0 : 0 ≤ i) (h1 : i < (MAX_PAGES : Int)) :
    defaultUrl MAX_URL_LEN i = "Page_" ++ toString i := by
  have h2 : i < 15 := h1
  interval_cases i <;> decide

/-- C11: for `0 ≤ n ≤ 15`, `createGraph n` returns a graph with `numPages = n`
in which every page `i` of `[0, n)` has the URL `"Page_"` followed by the
decimal representation of `i`, and an empty adjacency sequence. -/
theorem createGraph_default (n : Int) (h0 : 0 ≤ n) (h1 : n ≤ (MAX_PAGES : Int)) :
    ∃ g, createGraph n = some g ∧ g.numPages = n ∧
      ∀ i : Int, 0 ≤ i → i < n →
        g.url i = some ("Page_" ++ toString i) ∧ g.adj i = some [] := by
  obtain ⟨g, hg, hn, hall⟩ := createGraph_spec n h0 h1
  refine ⟨g, hg, hn, ?_⟩
  intro i hi0 hi1
  obtain ⟨ha, hu⟩ := hall i hi0 hi1
  rw [defaultUrl_eq i hi0 (by omega)] at hu
  exact ⟨hu, ha⟩

/-- Witness for C11: three pages. -/
theorem createGraph_default_witness :
    ((0 : Int) ≤ 3 ∧ (3 : Int) ≤ (MAX_PAGES : Int)) ∧
    ∃ g, createGraph 3 = some g ∧ g.numPages = 3 ∧
      ∀ i : Int, 0 ≤ i → i < 3 →
        g.url i = some ("Page_" ++ toString i) ∧ g.adj i = some [] :=
  ⟨⟨by decide, by decide⟩, createGraph_default 3 (by decide) (by decide)⟩

theorem setPageUrl_spec (g : Graph) (index : Int) (url : String) :
    (0 ≤ index → index < (MAX_PAGES : Int) → (MAX_PAGES : Int) ≤ g.urls.length →
      ∃ g1, setPageUrl g index url = some g1 ∧ g1.numPages = g.numPages ∧
        g1.adjList = g.adjList ∧ g1.urls.length = g.urls.length ∧
        (url.utf8ByteSize < MAX_URL_LEN → g1.url index = some url) ∧
        ∀ p, p ≠ index → g1.url p = g.url p) ∧
    ((MAX_PAGES : Int) ≤ index → setPageUrl g index url = some g) := by
  constructor
  · intro h0 h1 hlen
    obtain ⟨x, hx⟩ := readAt_isSome_of_lt g.urls h0 (by omega)
    obtain ⟨urls1, hw⟩ := writeAt_of_readAt (strncpy url MAX_URL_LEN) hx
    refine ⟨{ g with urls := urls1 }, ?_, rfl, rfl, writeAt_length hw, ?_, ?_⟩
    · simp [setPageUrl, h1, hw]
    · intro hl
      simp [Graph.url, readAt_writeAt_self hw, strncpy, hl]
    · intro p hp
      simp [Graph.url, readAt_writeAt_ne hw hp]
  · intro h
    have : ¬ index < (MAX_PAGES : Int) := by omega
    simp [setPageUrl, this]

/-- C12 at the failing input: with index `-1` the guard `pageIndex < MAX_PAGES`
holds, so `strncpy` writes to `urls[-1]`, outside the array; the call is not
the no-op `some loopGraph`. -/
theorem setPageUrl_negative_index :
    ((-1 : Int) < (MAX_PAGES : Int)) ∧ setPageUrl loopGraph (-1) "x" = none ∧
      setPageUrl loopGraph (-1) "x" ≠ some loopGraph := by
  decide

/-- C19 as stated fails: `addEdge` has no bounds check, so with `src = 15` it
accesses `adjList[15]`, outside the array, and no graph with the frame
properties results. -/
theorem mutators_frame_counterexample :
    ¬ ∃ g1, addEdge loopGraph 15 0 = some g1 ∧ g1.numPages = loopGraph.numPages ∧
      g1.urls = loopGraph.urls ∧ ∀ p, p ≠ 15 → g1.adj p = loopGraph.adj p := by
  have h : addEdge loopGraph 15 0 = none := by decide
  rintro ⟨g1, h1, _⟩
  rw [h] at h1
  cases h1

/-- C19, amended: when `src` is a page holding an adjacency sequence,
`addEdge g src dest` leaves `numPages`, every URL and the adjacency sequence of
every page other than `src` unchanged; when `index ≥ 0` (and the `urls` array
has its `MAX_PAGES` slots), `setPageUrl g index url` leaves `numPages`, every
adjacency sequence and the URL of every page other than `index` unchanged. -/
theorem mutators_frame (g : Graph) (src dest index : Int) (url : String) (old : List Int)
    (ha : g.adj src = some old) (hlen : g.urls.length = MAX_PAGES) (hi : 0 ≤ index) :
    (∃ g1, addEdge g src dest = some g1 ∧ g1.numPages = g.numPages ∧ g1.urls = g.urls ∧
      ∀ p, p ≠ src → g1.adj p = g.adj p) ∧
    (∃ g2, setPageUrl g index url = some g2 ∧ g2.numPages = g.numPages ∧
      g2.adjList = g.adjList ∧ ∀ p, p ≠ index → g2.url p = g.url p) := by
  constructor
  · obtain ⟨g1, h1, _, hother, hn, hu⟩ := addEdge_spec dest ha
    exact ⟨g1, h1, hn, hu, hother⟩
  · by_cases hlt : index < (MAX_PAGES : Int)
    · obtain ⟨g2, h2, hn, hadj, _, _, hother⟩ :=
        (setPageUrl_spec g index url).1 hi hlt (by omega)
      exact ⟨g2, h2, hn, hadj, hother⟩
    · exact ⟨g, (setPageUrl_spec g index url).2 (by omega), rfl, rfl, fun _ _ => rfl⟩

/-- Witness for C19 (amended): `loopGraph`, edge `0 -> 2`, URL of page 1. -/
theorem mutators_frame_witness :
    (loopGraph.adj 0 = some [1, 0] ∧ loopGraph.urls.length = MAX_PAGES ∧ (0 : Int) ≤ 1) ∧
    ((∃ g1, addEdge loopGraph 0 2 = some g1 ∧ g1.numPages = loopGraph.numPages ∧
      g1.urls = loopGraph.urls ∧ ∀ p, p ≠ 0 → g1.adj p = loopGraph.adj p) ∧
    (∃ g2, setPageUrl loopGraph 1 "u" = some g2 ∧ g2.numPages = loopGraph.numPages ∧
      g2.adjList = loopGraph.adjList ∧ ∀ p, p ≠ 1 → g2.url p = loopGraph.url p)) :=
  ⟨⟨by decide, by decide, by decide⟩,
   mutators_frame loopGraph 0 2 1 "u" [1, 0] (by decide) (by decide) (by decide)⟩

/-! ## Graph dump -/

theorem renderAll_append (a b : List Printed) :
    renderAll (a ++ b) = renderAll a ++ renderAll b := by
  induction a with
  | nil => simp [renderAll]
  | cons x a ih => simp [renderAll, ih, String.append_assoc]

theorem printGraphChain_spec {g : Graph} (hg : g.WellFormed) :
    ∀ (temp : List Int) (out : List Printed), (∀ j ∈ temp, 0 ≤ j ∧ j < g.numPages) →
      printGraphChain g temp out
        = some (out ++ temp.map (fun j => Printed.graphEdge j (g.urlText j))) := by
  intro temp
  induction temp with
  | nil => intro out _; simp [printGraphChain]
  | cons j temp ih =>
    intro out hr
    obtain ⟨hj0, hj1⟩ := hr j (List.mem_cons_self _ _)
    obtain ⟨url, _, hurl, _, _⟩ := wf_page hg hj0 hj1
    rw [printGraphChain, hurl]
    simp only
    rw [ih _ (fun k hk => hr k (List.mem_cons_of_mem _ hk))]
    simp [Graph.urlText, hurl]

theorem printGraphLoop_spec {g : Graph} (hg : g.WellFormed) :
    ∀ (l : List Nat) (out : List Printed), (∀ i ∈ l, (i : Int) < g.numPages) →
      printGraphLoop g l out = some (out ++ g.dumpAll l) := by
  intro l
  induction l with
  | nil => intro out _; simp [printGraphLoop, Graph.dumpAll]
  | cons i l ih =>
    intro out hr
    have hi := hr i (List.mem_cons_self _ _)
    obtain ⟨url, temp, hurl, hadj, htemp⟩ := wf_page hg (Int.ofNat_nonneg i) hi
    rw [printGraphLoop, hadj]
    simp only
    rw [hurl]
    simp only
    rw [printGraphChain_spec hg temp _ htemp]
    simp only
    rw [ih _ (fun k hk => hr k (List.mem_cons_of_mem _ hk))]
    simp [Graph.dumpAll, Graph.dumpRecords, Graph.urlText, hurl, hadj]

theorem printGraph_spec {g : Graph} (hg : g.WellFormed) :
    printGraph g = some (g.dumpAll (List.range g.numPages.toNat)) := by
  rw [printGraph, printGraphLoop_spec hg]
  · simp
  · intro i hi
    rw [List.mem_range] at hi
    omega

theorem renderAll_dumpEdges (g : Graph) (l : List Int) :
    renderAll (l.map (fun j => Printed.graphEdge j (g.urlText j))) = g.dumpEdges l := by
  induction l with
  | nil => rfl
  | cons j l ih => simp [renderAll, ih, Graph.dumpEdges, Printed.render]

theorem renderAll_dumpRecords (g : Graph) (i : Int) :
    renderAll (g.dumpRecords i) = g.dumpLine i := by
  simp [Graph.dumpRecords, renderAll_append, renderAll, renderAll_dumpEdges, Graph.dumpLine,
    Printed.render, String.append_assoc]

theorem renderAll_dumpAll (g : Graph) (l : List Nat) :
    renderAll (g.dumpAll l) = g.dumpText l := by
  induction l with
  | nil => rfl
  | cons i l ih => simp [Graph.dumpAll, Graph.dumpText, renderAll_append, ih, renderAll_dumpRecords]

theorem lineCount_append (a b : String) : lineCount (a ++ b) = lineCount a + lineCount b := by
  simp [lineCount, String.data_append, List.count_append]

theorem lineCount_toString (i : Int) (h0 : 0 ≤ i) (h1 : i < (MAX_PAGES : Int)) :
    lineCount (toString i) = 0 := by
  have h2 : i < 15 := h1
  interval_cases i <;> decide

theorem lineCount_dumpEdges {g : Graph} (hg : g.WellFormed)
    (hnl : ∀ i ∈ List.range g.numPages.toNat, lineCount (g.urlText (i : Int)) = 0) :
    ∀ l : List Int, (∀ j ∈ l, 0 ≤ j ∧ j < g.numPages) → lineCount (g.dumpEdges l) = 0 := by
  intro l
  induction l with
  | nil => intro _; rfl
  | cons j l ih =>
    intro hr
    obtain ⟨hj0, hj1⟩ := hr j (List.mem_cons_self _ _)
    have hn := hg.2.1
    have hu : lineCount (g.urlText j) = 0 := by
      have := hnl j.toNat (by rw [List.mem_range]; omega)
      rwa [Int.toNat_of_nonneg hj0] at this
    have h1 : lineCount " -> Page " = 0 := by decide
    have h2 : lineCount " (" = 0 := by decide
    have h3 : lineCount ")" = 0 := by decide
    rw [Graph.dumpEdges]
    simp only [lineCount_append, h1, h2, h3, hu, lineCount_toString j hj0 (by omega),
      ih (fun k hk => hr k (List.mem_cons_of_mem _ hk))]

theorem lineCount_dumpLine {g : Graph} (hg : g.WellFormed)
    (hnl : ∀ i ∈ List.range g.numPages.toNat, lineCount (g.urlText (i : Int)) = 0)
    (i : Int) (h0 : 0 ≤ i) (h1 : i < g.numPages) :
    ∃ body, g.dumpLine i = body ++ "\n" ∧ lineCount body = 0 ∧ lineCount (g.dumpLine i) = 1 := by
  have hn := hg.2.1
  obtain ⟨_, l, _, hadj, hl⟩ := wf_page hg h0 h1
  have hu : lineCount (g.urlText i) = 0 := by
    have := hnl i.toNat (by rw [List.mem_range]; omega)
    rwa [Int.toNat_of_nonneg h0] at this
  have he : lineCount (g.dumpEdges ((g.adj i).getD [])) = 0 := by
    rw [hadj]
    exact lineCount_dumpEdges hg hnl l hl
  have c1 : lineCount "Page " = 0 := by decide
  have c2 : lineCount " (" = 0 := by decide
  have c3 : lineCount "):" = 0 := by decide
  have c4 : lineCount "\n" = 1 := by decide
  have hb : lineCount ("Page " ++ toString i ++ " (" ++ g.urlText i ++ "):" ++
      g.dumpEdges ((g.adj i).getD [])) = 0 := by
    simp only [lineCount_append, c1, c2, c3, hu, he, lineCount_toString i h0 (by omega)]
  refine ⟨"Page " ++ toString i ++ " (" ++ g.urlText i ++ "):" ++
      g.dumpEdges ((g.adj i).getD []), ?_, hb, ?_⟩
  · rw [Graph.dumpLine]
    simp only [String.append_assoc]
  · rw [Graph.dumpLine]
    simp only [lineCount_append, c1, c2, c3, c4, hu, he, lineCount_toString i h0 (by omega)]

theorem lineCount_dumpText {g : Graph} (hg : g.WellFormed)
    (hnl : ∀ i ∈ List.range g.numPages.toNat, lineCount (g.urlText (i : Int)) = 0) :
    ∀ l : List Nat, (∀ i ∈ l, (i : Int) < g.numPages) → lineCount (g.dumpText l) = l.length := by
  intro l
  induction l with
  | nil => intro _; rfl
  | cons i l ih =>
    intro hr
    obtain ⟨_, _, _, h1⟩ :=
      lineCount_dumpLine hg hnl (i : Int) (Int.ofNat_nonneg i) (hr i (List.mem_cons_self _ _))
    rw [Graph.dumpText, lineCount_append, h1, ih (fun k hk => hr k (List.mem_cons_of_mem _ hk))]
    simp [Nat.add_comm]

/-- C13 as stated fails: `printGraph` prints a URL as it is, so on the
well-formed one-page graph whose URL is `"a\nb"` (made by `createGraph(1)` and
`setPageUrl(graph, 0, "a\nb")`) the text printed is `"Page 0 (a\nb):\n"`: two
newline-terminated lines for one page, the first of them not of the form
`Page <i> (<url>):`. -/
theorem printGraph_lines_counterexample :
    (match createGraph 1 with
      | none => none
      | some g => setPageUrl g 0 "a\nb") = some newlineGraph ∧
    newlineGraph.WellFormed ∧ newlineGraph.numPages = 1 ∧
    (printGraph newlineGraph).map renderAll = some "Page 0 (a\nb):\n" ∧
    (printGraph newlineGraph).map (fun out => lineCount (renderAll out)) = some 2 := by
  decide

/-- C13, amended: on a well-formed graph in which no URL of a page in use holds
a newline character, `printGraph` returns; the text it prints is, for the pages
`0, 1, ..., numPages - 1` in this order, the line of the page (`Graph.dumpLine`):
`Page <i> (<url_i>):`, then ` -> Page <j> (<url_j>)` for each entry `j` of the
adjacency sequence of page `i` in stored order, then a newline.  Each line
holds no other newline, and the text has exactly `numPages` lines.  The graph
is only read (`printGraph` returns no graph). -/
theorem printGraph_lines (g : Graph) (hg : g.WellFormed)
    (hnl : ∀ i ∈ List.range g.numPages.toNat, lineCount (g.urlText (i : Int)) = 0) :
    ∃ out, printGraph g = some out ∧
      out = g.dumpAll (List.range g.numPages.toNat) ∧
      renderAll out = g.dumpText (List.range g.numPages.toNat) ∧
      lineCount (renderAll out) = g.numPages.toNat ∧
      (∀ i : Int, 0 ≤ i → i < g.numPages →
        ∃ body, g.dumpLine i = body ++ "\n" ∧ lineCount body = 0) ∧
      ∀ i : Int, renderAll (g.dumpRecords i) = g.dumpLine i := by
  refine ⟨_, printGraph_spec hg, rfl, renderAll_dumpAll g _, ?_, ?_, renderAll_dumpRecords g⟩
  · rw [renderAll_dumpAll, lineCount_dumpText hg hnl]
    · simp
    · intro i hi
      rw [List.mem_range] at hi
      omega
  · intro i h0 h1
    obtain ⟨body, hb, hc, _⟩ := lineCount_dumpLine hg hnl i h0 h1
    exact ⟨body, hb, hc⟩

/-- Witness for C13 (amended): `loopGraph`. -/
theorem printGraph_lines_witness :
    (loopGraph.WellFormed ∧
      ∀ i ∈ List.range loopGraph.numPages.toNat, lineCount (loopGraph.urlText (i : Int)) = 0) ∧
    ∃ out, printGraph loopGraph = some out ∧
      out = loopGraph.dumpAll (List.range loopGraph.numPages.toNat) ∧
      renderAll out = loopGraph.dumpText (List.range loopGraph.numPages.toNat) ∧
      lineCount (renderAll out) = loopGraph.numPages.toNat ∧
      (∀ i : Int, 0 ≤ i → i < loopGraph.numPages →
        ∃ body, loopGraph.dumpLine i = body ++ "\n" ∧ lineCount body = 0) ∧
      ∀ i : Int, renderAll (loopGraph.dumpRecords i) = loopGraph.dumpLine i :=
  ⟨⟨by decide, by decide⟩, printGraph_lines loopGraph (by decide) (by decide)⟩

/-! ## Driver -/

theorem freeGraphLoop_spec {g : Graph} (hg : g.WellFormed) :
    ∀ l : List Nat, (∀ i ∈ l, (i : Int) < g.numPages) → freeGraphLoop g l = some () := by
  intro l
  induction l with
  | nil => intro _; rfl
  | cons i l ih =>
    intro hr
    obtain ⟨_, temp, _, hadj, _⟩ :=
      wf_page hg (Int.ofNat_nonneg i) (hr i (List.mem_cons_self _ _))
    rw [freeGraphLoop, hadj]
    exact ih (fun k hk => hr k (List.mem_cons_of_mem _ hk))

theorem freeGraph_spec {g : Graph} (hg : g.WellFormed) : freeGraph g = some () := by
  rw [freeGraph]
  apply freeGraphLoop_spec hg
  intro i hi
  rw [List.mem_range] at hi
  omega

theorem dumpAll_not_traversal (g : Graph) (l : List Nat) :
    ∀ x ∈ g.dumpAll l, x.isTraversal = false := by
  induction l with
  | nil => intro x hx; simp [Graph.dumpAll] at hx
  | cons i l ih =>
    intro x hx
    simp only [Graph.dumpAll, Graph.dumpRecords, List.append_assoc, List.mem_append,
      List.mem_singleton, List.mem_map] at hx
    rcases hx with rfl | ⟨j, _, rfl⟩ | rfl | hx
    · rfl
    · rfl
    · rfl
    · exact ih x hx

/-- C14: the driver, for the integer `choice` read by `scanf`.  After the graph
dump and the prompt: a choice other than 1 and 2 prints exactly
`Invalid choice!` (its text is `"Invalid choice!\n"`), the whole output holds
no banner and no `Visited:` line, and the exit status is 0; choice 1 prints
what `bfsTraversal` from page 0 prints; choice 2 prints the DFS banner and what
`dfsTraversal` from page 0 prints (fuel of at least 10 for both). -/
theorem main_choice (fuel : Nat) (choice : Int) :
    ∃ g dump, sampleGraph = some g ∧ printGraph g = some dump ∧
      (choice ≠ 1 → choice ≠ 2 →
        main fuel choice
          = some (dump ++ [Printed.chooseMethod] ++ [Printed.invalidChoice], 0) ∧
        (∀ x ∈ dump ++ [Printed.chooseMethod] ++ [Printed.invalidChoice],
          x.isTraversal = false) ∧
        Printed.invalidChoice.render = "Invalid choice!\n") ∧
      (choice = 1 → 10 ≤ fuel →
        ∃ out, bfsTraversal fuel g 0 = some out ∧
          main fuel choice = some (dump ++ [Printed.chooseMethod] ++ out, 0)) ∧
      (choice = 2 → 10 ≤ fuel →
        ∃ visited1 out,
          dfsTraversal g fuel 0 (List.replicate MAX_PAGES 0) = some (visited1, out) ∧
          main fuel choice
            = some (dump ++ [Printed.chooseMethod] ++ ([Printed.dfsBanner] ++ out), 0)) := by
  have hfacts := sampleGraph_facts
  cases hs : sampleGraph with
  | none => rw [hs] at hfacts; simp at hfacts
  | some g =>
    rw [hs] at hfacts
    simp only [Option.map_some', Option.some.injEq, decide_eq_true_eq] at hfacts
    obtain ⟨hwf, hn, _⟩ := hfacts
    have hdump := printGraph_spec hwf
    have hfree := freeGraph_spec hwf
    refine ⟨g, _, rfl, hdump, ?_, ?_, ?_⟩
    · intro h1 h2
      refine ⟨by simp [main, hs, hdump, h1, h2, hfree], ?_, rfl⟩
      intro x hx
      simp only [List.append_assoc, List.mem_append, List.mem_singleton] at hx
      rcases hx with hx | rfl | rfl
      · exact dumpAll_not_traversal g _ x hx
      · rfl
      · rfl
    · intro h1 hfuel
      obtain ⟨out, hrun, _⟩ := bfs_master g 0 hwf (le_refl _) (by omega)
      have hout := hrun fuel (by omega)
      exact ⟨out, hout, by simp [main, hs, hdump, h1, hout, hfree]⟩
    · intro h2 hfuel
      obtain ⟨visited1, out, hrun, _⟩ :=
        dfs_master g 0 (List.replicate MAX_PAGES 0) hwf (le_refl _) (by omega)
          (by simp [MAX_PAGES]; omega) (by simp)
      have hout := hrun fuel (by omega)
      exact ⟨visited1, out, hout, by simp [main, hs, hdump, h2, hout, hfree]⟩

/-- Witness for C14: choice 3 (no fuel), and choices 1 and 2 with fuel 10. -/
theorem main_choice_witness :
    (∃ dump, main 0 3 = some (dump ++ [Printed.chooseMethod] ++ [Printed.invalidChoice], 0)) ∧
    (∃ dump out, main 10 1 = some (dump ++ [Printed.chooseMethod] ++ out, 0)) ∧
    (∃ dump out,
      main 10 2 = some (dump ++ [Printed.chooseMethod] ++ ([Printed.dfsBanner] ++ out), 0)) :=
  ⟨let ⟨_, dump, _, _, h, _, _⟩ := main_choice 0 3
   ⟨dump, (h (by decide) (by decide)).1⟩,
   let ⟨_, dump, _, _, _, h, _⟩ := main_choice 10 1
   let ⟨out, _, hm⟩ := h rfl (le_refl _)
   ⟨dump, out, hm⟩,
   let ⟨_, dump, _, _, _, _, h⟩ := main_choice 10 2
   let ⟨_, out, _, hm⟩ := h rfl (le_refl _)
   ⟨dump, out, hm⟩⟩

/-! ## Further properties of the traversals -/

/-- C20: on a well-formed graph, a start index in range and an all-false
`visited` array, the pages printed by `bfsTraversal` and by `dfsTraversal` are
permutations of one another, neither holds a page twice, and both begin with
`start`. -/
theorem bfs_dfs_same_pages (g : Graph) (start : Int) (visited : List Int)
    (hg : g.WellFormed) (h0 : 0 ≤ start) (h1 : start < g.numPages)
    (hlen : g.numPages ≤ visited.length) (hzero : ∀ f ∈ visited, f = 0) :
    ∃ bfsOut visited1 dfsOut,
      (∀ fuel, g.numPages.toNat ≤ fuel → bfsTraversal fuel g start = some bfsOut) ∧
      (∀ fuel, g.numPages.toNat ≤ fuel →
        dfsTraversal g fuel start visited = some (visited1, dfsOut)) ∧
      (visitedPages bfsOut).Perm (visitedPages dfsOut) ∧
      (visitedPages bfsOut).Nodup ∧ (visitedPages dfsOut).Nodup ∧
      (visitedPages bfsOut).head? = some start ∧
      (visitedPages dfsOut).head? = some start := by
  obtain ⟨bfsOut, hb, hbn, hbs, hbc, hbh, _⟩ := bfs_master g start hg h0 h1
  obtain ⟨visited1, dfsOut, hd, _, hpre⟩ := dfs_master g start visited hg h0 h1 hlen hzero
  obtain ⟨hdn, hdh, hdr⟩ := preOrder_reachable hpre
  refine ⟨bfsOut, visited1, dfsOut, hb, hd, ?_, hbn, hdn, hbh, hdh⟩
  rw [List.perm_ext_iff_of_nodup hbn hdn]
  intro p
  rw [hdr p]
  exact ⟨fun hp => (hbs p hp).2, hbc p⟩

/-- Witness for C20: `loopGraph` from page 2. -/
theorem bfs_dfs_same_pages_witness :
    (loopGraph.WellFormed ∧ (0 : Int) ≤ 2 ∧ (2 : Int) < loopGraph.numPages ∧
      loopGraph.numPages ≤ (List.replicate MAX_PAGES (0 : Int)).length ∧
      ∀ f ∈ List.replicate MAX_PAGES (0 : Int), f = 0) ∧
    ∃ bfsOut visited1 dfsOut,
      (∀ fuel, loopGraph.numPages.toNat ≤ fuel →
        bfsTraversal fuel loopGraph 2 = some bfsOut) ∧
      (∀ fuel, loopGraph.numPages.toNat ≤ fuel →
        dfsTraversal loopGraph fuel 2 (List.replicate MAX_PAGES 0)
          = some (visited1, dfsOut)) ∧
      (visitedPages bfsOut).Perm (visitedPages dfsOut) ∧
      (visitedPages bfsOut).Nodup ∧ (visitedPages dfsOut).Nodup ∧
      (visitedPages bfsOut).head? = some 2 ∧
      (visitedPages dfsOut).head? = some 2 :=
  ⟨⟨by decide, by decide, by decide, by decide, by decide⟩,
   bfs_dfs_same_pages loopGraph 2 (List.replicate MAX_PAGES 0)
     (by decide) (by decide) (by decide) (by decide) (by decide)⟩

theorem flags_exist (g : Graph) (visited : List Int) (hlen : g.numPages ≤ visited.length) :
    ∃ S, Flags g visited S := by
  classical
  refine ⟨((List.range visited.length).map (fun i : Nat => (i : Int))).filter
    (fun p => decide (∃ f, readAt visited p = some f ∧ f ≠ 0)), ?_, ?_⟩
  · intro p hp0 hp1
    exact readAt_isSome_of_lt visited hp0 (by omega)
  · intro p f hr
    rw [List.mem_filter, List.mem_map]
    have hlt : 0 ≤ p ∧ p.toNat < visited.length := by
      unfold readAt at hr
      split at hr
      · rename_i hp
        refine ⟨hp, ?_⟩
        by_contra hge
        rw [List.getElem?_eq_none (by omega)] at hr
        cases hr
      · cases hr
    constructor
    · intro hf
      refine ⟨⟨p.toNat, by rw [List.mem_range]; exact hlt.2, by omega⟩, ?_⟩
      simp only [decide_eq_true_eq]
      exact ⟨f, hr, hf⟩
    · rintro ⟨_, hd⟩
      simp only [decide_eq_true_eq] at hd
      obtain ⟨f1, hr1, hf1⟩ := hd
      rw [hr] at hr1
      cases hr1
      exact hf1

/-- C16: on a well-formed graph (cycles, self-loops and duplicate edges
allowed), for a start index in range and any `visited` array with a flag for
every page, `dfsTraversal` returns when given a budget of `numPages` nested
calls (and the same result with any larger budget): the nesting depth of its
recursive calls does not exceed `numPages`, which is at most 15. -/
theorem dfs_depth_bounded (g : Graph) (start : Int) (visited : List Int)
    (hg : g.WellFormed) (h0 : 0 ≤ start) (h1 : start < g.numPages)
    (hlen : g.numPages ≤ visited.length) :
    g.numPages.toNat ≤ MAX_PAGES ∧
    ∃ r, ∀ fuel, g.numPages.toNat ≤ fuel → dfsTraversal g fuel start visited = some r := by
  have hn := hg.2.1
  refine ⟨by omega, ?_⟩
  obtain ⟨S, hfl⟩ := flags_exist g visited hlen
  obtain ⟨k, hk⟩ : ∃ k, g.numPages.toNat = k + 1 := ⟨g.numPages.toNat - 1, by omega⟩
  obtain ⟨f, hf⟩ := hfl.readable start h0 h1
  obtain ⟨V1, hw⟩ := writeAt_of_readAt (1 : Int) hf
  obtain ⟨url, ws, hurl, hadj, hws⟩ := wf_page hg h0 h1
  have hfl1 := flags_write hfl hw
  have hmem : start ∈ (List.range g.numPages.toNat).map (fun i : Nat => (i : Int)) := by
    rw [List.mem_map]
    exact ⟨start.toNat, by rw [List.mem_range]; omega, by omega⟩
  have hlenU : (((List.range g.numPages.toNat).map (fun i : Nat => (i : Int))).erase
      start).length ≤ k := by
    rw [List.length_erase_of_mem hmem]
    simp [hk]
  obtain ⟨V2, outs, hs, _, _⟩ :=
    dfsScan_spec (dfsTraversal g k)
      (((List.range g.numPages.toNat).map (fun i : Nat => (i : Int))).erase start)
      (fun w V S hw0 hw1 hflw hnw hcw => dfsTraversal_spec hg k w V S _ hw0 hw1 hflw hnw hcw hlenU)
      ws V1 (S ++ [start]) [Printed.visited start url] hws hfl1
      (by
        intro p hp0 hp1 hn
        have hps : p ≠ start := fun e => hn (by simp [e])
        refine (List.mem_erase_of_ne hps).2 ?_
        rw [List.mem_map]
        exact ⟨p.toNat, by rw [List.mem_range]; omega, by omega⟩)
  have hrun : dfsTraversal g (k + 1) start visited
      = some (V2, [Printed.visited start url] ++ outs) := by
    simp [dfsTraversal, hw, hurl, hadj, hs]
  refine ⟨_, fun fuel hfuel => dfsTraversal_mono_le (by omega) hrun⟩

/-- Witness for C16: `loopGraph` from page 0, pages 0 and 2 already flagged. -/
theorem dfs_depth_bounded_witness :
    (loopGraph.WellFormed ∧ (0 : Int) ≤ 0 ∧ (0 : Int) < loopGraph.numPages ∧
      loopGraph.numPages ≤ ([1, 0, 7] ++ List.replicate 12 (0 : Int)).length) ∧
    (loopGraph.numPages.toNat ≤ MAX_PAGES ∧
    ∃ r, ∀ fuel, loopGraph.numPages.toNat ≤ fuel →
      dfsTraversal loopGraph fuel 0 ([1, 0, 7] ++ List.replicate 12 (0 : Int)) = some r) :=
  ⟨⟨by decide, by decide, by decide, by decide⟩,
   dfs_depth_bounded loopGraph 0 ([1, 0, 7] ++ List.replicate 12 (0 : Int))
     (by decide) (by decide) (by decide) (by decide)⟩

/-! ## The log of the breadth-first traversal -/

theorem bfsScanLog_erase : ∀ (ws visited : List Int) (q : Queue) (log : List BfsEvent),
    (bfsScanLog visited q ws log).map (fun r => (r.1, r.2.1)) = bfsScan visited q ws := by
  intro ws
  induction ws with
  | nil => intro visited q log; rfl
  | cons w ws ih =>
    intro visited q log
    rw [bfsScanLog, bfsScan]
    cases hf : readAt visited w with
    | none => rfl
    | some f =>
      simp only
      by_cases hz : f = 0
      · rw [if_pos hz, if_pos hz]
        cases hw : writeAt visited w 1 with
        | none => rfl
        | some visited1 =>
          simp only
          cases he : enqueue q w with
          | none => rfl
          | some q1 => exact ih _ _ _
      · rw [if_neg hz, if_neg hz]
        exact ih _ _ _

theorem bfsLoopLog_erase (g : Graph) : ∀ (fuel : Nat) (visited : List Int) (q : Queue)
    (out : List Printed) (log : List BfsEvent),
    (bfsLoopLog g fuel visited q out log).map (fun r => (r.1, r.2.1, r.2.2.1))
      = bfsLoop g fuel visited q out := by
  intro fuel
  induction fuel with
  | zero =>
    intro visited q out log
    rw [bfsLoopLog, bfsLoop]
    cases q.front <;> rfl
  | succ fuel ih =>
    intro visited q out log
    rw [bfsLoopLog, bfsLoop]
    cases hfr : q.front with
    | none => rfl
    | some a =>
      simp only
      cases hdq : dequeue q with
      | none => rfl
      | some pq =>
        obtain ⟨p, q1⟩ := pq
        simp only
        cases hurl : g.url p with
        | none => rfl
        | some url =>
          simp only
          cases hadj : g.adj p with
          | none => rfl
          | some l =>
            simp only
            have hs := bfsScanLog_erase l visited q1
              (log ++ [BfsEvent.deq p, BfsEvent.idx p, BfsEvent.idx p])
            cases hsl : bfsScanLog visited q1 l
                (log ++ [BfsEvent.deq p, BfsEvent.idx p, BfsEvent.idx p]) with
            | none =>
              rw [hsl] at hs
              simp only [Option.map_none'] at hs
              rw [← hs]
              rfl
            | some r =>
              obtain ⟨v1, q2, log1⟩ := r
              rw [hsl] at hs
              simp only [Option.map_some'] at hs
              rw [← hs]
              exact ih _ _ _ _

theorem bfsTraversalLog_erase (fuel : Nat) (g : Graph) (start : Int) :
    (bfsTraversalLog fuel g start).map Prod.fst = bfsTraversal fuel g start := by
  rw [bfsTraversalLog, bfsTraversal]
  cases hurl : g.url start with
  | none => rfl
  | some url =>
    simp only
    cases he : enqueue createQueue start with
    | none => rfl
    | some q1 =>
      simp only
      cases hw : writeAt (List.replicate MAX_PAGES (0 : Int)) start 1 with
      | none => rfl
      | some visited1 =>
        simp only
        have hl := bfsLoopLog_erase g fuel visited1 q1 [Printed.bfsBanner start url]
          [BfsEvent.idx start, BfsEvent.enq start, BfsEvent.idx start]
        cases hll : bfsLoopLog g fuel visited1 q1 [Printed.bfsBanner start url]
            [BfsEvent.idx start, BfsEvent.enq start, BfsEvent.idx start] with
        | none =>
          rw [hll] at hl
          simp only [Option.map_none'] at hl
          rw [← hl]
          rfl
        | some r =>
          obtain ⟨v2, q2, out1, log⟩ := r
          rw [hll] at hl
          simp only [Option.map_some'] at hl
          rw [← hl]
          simp only
          cases freeQueue fuel q2 <;> rfl

theorem enqs_append (a b : List BfsEvent) : enqs (a ++ b) = enqs a ++ enqs b := by
  induction a with
  | nil => rfl
  | cons x a ih => cases x <;> simp [enqs, ih]

theorem deqs_append (a b : List BfsEvent) : deqs (a ++ b) = deqs a ++ deqs b := by
  induction a with
  | nil => rfl
  | cons x a ih => cases x <;> simp [deqs, ih]

theorem idxs_append (a b : List BfsEvent) : idxs (a ++ b) = idxs a ++ idxs b := by
  induction a with
  | nil => rfl
  | cons x a ih => cases x <;> simp [idxs, ih]

theorem bfsScanLog_log : ∀ (ws visited : List Int) (q : Queue) (log : List BfsEvent)
    (Q : List Int) (r : List Int × Queue × List BfsEvent),
    bfsScanLog visited q ws log = some r → q.Rep Q →
    ∃ ev, r.2.2 = log ++ ev ∧ r.2.1.Rep (Q ++ enqs ev) ∧ deqs ev = [] ∧
      ∀ i ∈ idxs ev, i ∈ ws := by
  intro ws
  induction ws with
  | nil =>
    intro visited q log Q r h hq
    rw [bfsScanLog] at h
    cases h
    exact ⟨[], by simp, by simpa [enqs] using hq, rfl, by simp [idxs]⟩
  | cons w ws ih =>
    intro visited q log Q r h hq
    rw [bfsScanLog] at h
    cases hf : readAt visited w with
    | none => rw [hf] at h; simp at h
    | some f =>
      rw [hf] at h
      simp only at h
      by_cases hz : f = 0
      · rw [if_pos hz] at h
        cases hw : writeAt visited w 1 with
        | none => rw [hw] at h; simp at h
        | some visited1 =>
          rw [hw] at h
          simp only at h
          obtain ⟨q1, he, hq1, _⟩ := enqueue_rep hq w
          rw [he] at h
          simp only at h
          obtain ⟨ev, hlog, hrep, hd, hi⟩ := ih _ _ _ (Q ++ [w]) r h hq1
          refine ⟨[BfsEvent.idx w, BfsEvent.idx w, BfsEvent.enq w] ++ ev, ?_, ?_, ?_, ?_⟩
          · rw [hlog]; simp
          · simpa [enqs_append, enqs] using hrep
          · simpa [deqs_append, deqs] using hd
          · intro i hmem
            have e : idxs ([BfsEvent.idx w, BfsEvent.idx w, BfsEvent.enq w] ++ ev)
                = w :: w :: idxs ev := rfl
            rw [e] at hmem
            simp only [List.mem_cons] at hmem ⊢
            rcases hmem with h1 | h1 | h1
            · exact Or.inl h1
            · exact Or.inl h1
            · exact Or.inr (hi i h1)
      · rw [if_neg hz] at h
        obtain ⟨ev, hlog, hrep, hd, hi⟩ := ih _ _ _ Q r h hq
        refine ⟨[BfsEvent.idx w] ++ ev, ?_, ?_, ?_, ?_⟩
        · rw [hlog]; simp
        · simpa [enqs_append, enqs] using hrep
        · simpa [deqs_append, deqs] using hd
        · intro i hmem
          have e : idxs ([BfsEvent.idx w] ++ ev) = w :: idxs ev := rfl
          rw [e] at hmem
          simp only [List.mem_cons] at hmem ⊢
          rcases hmem with h1 | h1
          · exact Or.inl h1
          · exact Or.inr (hi i h1)

theorem bfsLoopLog_log (g : Graph) : ∀ (fuel : Nat) (visited : List Int) (q : Queue)
    (out : List Printed) (log : List BfsEvent) (Q : List Int)
    (r : List Int × Queue × List Printed × List BfsEvent),
    bfsLoopLog g fuel visited q out log = some r → q.Rep Q →
    ∃ ev, r.2.2.2 = log ++ ev ∧ Q ++ enqs ev = deqs ev ∧
      visitedPages r.2.2.1 = visitedPages out ++ deqs ev ∧
      ∀ i ∈ idxs ev, i ∈ deqs ev ∨ ∃ p ∈ deqs ev, g.Edge p i := by
  intro fuel
  induction fuel with
  | zero =>
    intro visited q out log Q r h hq
    rw [bfsLoopLog] at h
    cases hfr : q.front with
    | none =>
      rw [hfr] at h
      cases h
      have hQ := hq.front_none_iff.1 hfr
      subst hQ
      exact ⟨[], by simp, rfl, by simp [deqs], by simp [idxs]⟩
    | some a => rw [hfr] at h; simp at h
  | succ fuel ih =>
    intro visited q out log Q r h hq
    rw [bfsLoopLog] at h
    cases hfr : q.front with
    | none =>
      rw [hfr] at h
      cases h
      have hQ := hq.front_none_iff.1 hfr
      subst hQ
      exact ⟨[], by simp, rfl, by simp [deqs], by simp [idxs]⟩
    | some a =>
      rw [hfr] at h
      simp only at h
      cases Q with
      | nil =>
        have := hq.front_none_iff.2 rfl
        rw [this] at hfr
        cases hfr
      | cons u Q1 =>
        obtain ⟨q1, hdq, hq1, _⟩ := dequeue_rep hq
        rw [hdq] at h
        simp only at h
        cases hurl : g.url u with
        | none => rw [hurl] at h; simp at h
        | some url =>
          rw [hurl] at h
          simp only at h
          cases hadj : g.adj u with
          | none => rw [hadj] at h; simp at h
          | some l =>
            rw [hadj] at h
            simp only at h
            cases hsl : bfsScanLog visited q1 l
                (log ++ [BfsEvent.deq u, BfsEvent.idx u, BfsEvent.idx u]) with
            | none => rw [hsl] at h; simp at h
            | some r1 =>
              obtain ⟨v1, q2, log1⟩ := r1
              rw [hsl] at h
              simp only at h
              obtain ⟨ev1, hlog1, hrep1, hd1, hi1⟩ := bfsScanLog_log _ _ _ _ Q1 _ hsl hq1
              simp only at hlog1 hrep1
              obtain ⟨ev2, hlog2, hq2, hv2, hi2⟩ := ih _ _ _ _ _ r h hrep1
              refine ⟨[BfsEvent.deq u, BfsEvent.idx u, BfsEvent.idx u] ++ ev1 ++ ev2,
                ?_, ?_, ?_, ?_⟩
              · rw [hlog2, hlog1]; simp
              · have e1 : enqs ([BfsEvent.deq u, BfsEvent.idx u, BfsEvent.idx u] ++ ev1 ++ ev2)
                    = enqs ev1 ++ enqs ev2 := by
                  rw [enqs_append, enqs_append]; rfl
                have e2 : deqs ([BfsEvent.deq u, BfsEvent.idx u, BfsEvent.idx u] ++ ev1 ++ ev2)
                    = u :: deqs ev2 := by
                  rw [deqs_append, deqs_append, hd1]; rfl
                rw [e1, e2, ← hq2]
                simp
              · have e2 : deqs ([BfsEvent.deq u, BfsEvent.idx u, BfsEvent.idx u] ++ ev1 ++ ev2)
                    = u :: deqs ev2 := by
                  rw [deqs_append, deqs_append, hd1]; rfl
                rw [e2, hv2, visitedPages_append]
                simp [visitedPages]
              · have e2 : deqs ([BfsEvent.deq u, BfsEvent.idx u, BfsEvent.idx u] ++ ev1 ++ ev2)
                    = u :: deqs ev2 := by
                  rw [deqs_append, deqs_append, hd1]; rfl
                have e3 : idxs ([BfsEvent.deq u, BfsEvent.idx u, BfsEvent.idx u] ++ ev1 ++ ev2)
                    = u :: u :: (idxs ev1 ++ idxs ev2) := by
                  rw [idxs_append, idxs_append]; rfl
                rw [e2, e3]
                intro i hmem
                simp only [List.mem_cons, List.mem_append] at hmem
                rcases hmem with h1 | h1 | h1 | h1
                · exact Or.inl (by simp [h1])
                · exact Or.inl (by simp [h1])
                · exact Or.inr ⟨u, by simp, l, hadj, hi1 i h1⟩
                · rcases hi2 i h1 with h2 | ⟨p, hp, he⟩
                  · exact Or.inl (List.mem_cons_of_mem _ h2)
                  · exact Or.inr ⟨p, List.mem_cons_of_mem _ hp, he⟩

/-- What the BFS invariant and the log give together. -/
theorem bfs_log_master (g : Graph) (start : Int) (hg : g.WellFormed) (h0 : 0 ≤ start)
    (h1 : start < g.numPages) (fuel : Nat) (hfuel : g.numPages.toNat ≤ fuel) :
    ∃ out log, bfsTraversalLog fuel g start = some (out, log) ∧
      bfsTraversal fuel g start = some out ∧
      enqs log = visitedPages out ∧ deqs log = visitedPages out ∧
      (visitedPages out).Nodup ∧ (∀ p ∈ visitedPages out, 0 ≤ p ∧ p < g.numPages) ∧
      ∀ i ∈ idxs log, 0 ≤ i ∧ i < g.numPages := by
  obtain ⟨out, hrun, hnd, hsound, _⟩ := bfs_master g start hg h0 h1
  have hb := hrun fuel hfuel
  have her := bfsTraversalLog_erase fuel g start
  rw [hb] at her
  cases hl : bfsTraversalLog fuel g start with
  | none => rw [hl] at her; simp at her
  | some r =>
    obtain ⟨out1, log⟩ := r
    rw [hl] at her
    simp only [Option.map_some', Option.some.injEq] at her
    subst her
    have hl2 := hl
    rw [bfsTraversalLog] at hl2
    cases hurl : g.url start with
    | none => rw [hurl] at hl2; simp at hl2
    | some url =>
      rw [hurl] at hl2
      simp only at hl2
      obtain ⟨q1, he, hq1, _⟩ := enqueue_rep createQueue_rep start
      rw [he] at hl2
      simp only at hl2
      cases hw : writeAt (List.replicate MAX_PAGES (0 : Int)) start 1 with
      | none => rw [hw] at hl2; simp at hl2
      | some visited1 =>
        rw [hw] at hl2
        simp only at hl2
        cases hll : bfsLoopLog g fuel visited1 q1 [Printed.bfsBanner start url]
            [BfsEvent.idx start, BfsEvent.enq start, BfsEvent.idx start] with
        | none => rw [hll] at hl2; simp at hl2
        | some r2 =>
          obtain ⟨v2, q2, out2, log2⟩ := r2
          rw [hll] at hl2
          simp only at hl2
          cases hfq : freeQueue fuel q2 with
          | none => rw [hfq] at hl2; simp at hl2
          | some u =>
            rw [hfq] at hl2
            simp only [Option.some.injEq, Prod.mk.injEq] at hl2
            obtain ⟨ho, hlg⟩ := hl2
            subst ho hlg
            obtain ⟨ev, hlog, hqe, hvis, hidx⟩ := bfsLoopLog_log g _ _ _ _ _ _ _ hll hq1
            simp only [List.nil_append] at hqe hlog hvis
            have hvis1 : visitedPages out2 = deqs ev := by
              rw [hvis]; simp [visitedPages]
            have hE : enqs log2 = visitedPages out2 := by
              rw [hlog, enqs_append, hvis1, ← hqe]; rfl
            have hD : deqs log2 = visitedPages out2 := by
              rw [hlog, deqs_append, hvis1]; rfl
            have hrange : ∀ p ∈ visitedPages out2, 0 ≤ p ∧ p < g.numPages :=
              fun p hp => (hsound p hp).1
            refine ⟨out2, log2, rfl, hb, hE, hD, hnd, hrange, ?_⟩
            have hI : idxs log2 = start :: start :: idxs ev := by
              rw [hlog, idxs_append]; rfl
            rw [hI]
            intro i hmem
            simp only [List.mem_cons] at hmem
            rcases hmem with h2 | h2 | h2
            · rw [h2]; exact ⟨h0, h1⟩
            · rw [h2]; exact ⟨h0, h1⟩
            · rcases hidx i h2 with h3 | ⟨p, hp, l, hadj, hil⟩
              · exact hrange i (by rw [hvis1]; exact h3)
              · obtain ⟨hp0, hp1⟩ := hrange p (by rw [hvis1]; exact hp)
                obtain ⟨_, l1, _, hadj1, hl1⟩ := wf_page hg hp0 hp1
                rw [hadj] at hadj1
                cases hadj1
                exact hl1 i hil

/-- C15: on a well-formed graph (cycles, self-loops and duplicate edges
allowed) and a start index in range, `bfsTraversal` returns with any fuel of
at least `numPages` iterations; in the log of the run no page is the argument
of two `enqueue` calls, and the number of `enqueue` calls and the number of
`dequeue` calls of the loop are both at most `numPages`. -/
theorem bfs_enqueue_once (g : Graph) (start : Int) (hg : g.WellFormed) (h0 : 0 ≤ start)
    (h1 : start < g.numPages) (fuel : Nat) (hfuel : g.numPages.toNat ≤ fuel) :
    ∃ out log, bfsTraversalLog fuel g start = some (out, log) ∧
      bfsTraversal fuel g start = some out ∧
      (enqs log).Nodup ∧ ((enqs log).length : Int) ≤ g.numPages ∧
      ((deqs log).length : Int) ≤ g.numPages := by
  obtain ⟨out, log, hl, hb, hE, hD, hnd, hrange, _⟩ :=
    bfs_log_master g start hg h0 h1 fuel hfuel
  have hlen := int_nodup_length_le hg.1 hnd hrange
  exact ⟨out, log, hl, hb, by rw [hE]; exact hnd, by rw [hE]; exact hlen,
    by rw [hD]; exact hlen⟩

/-- Witness for C15: `loopGraph` from page 0 with fuel 3. -/
theorem bfs_enqueue_once_witness :
    (loopGraph.WellFormed ∧ (0 : Int) ≤ 0 ∧ (0 : Int) < loopGraph.numPages ∧
      loopGraph.numPages.toNat ≤ 3) ∧
    ∃ out log, bfsTraversalLog 3 loopGraph 0 = some (out, log) ∧
      bfsTraversal 3 loopGraph 0 = some out ∧
      (enqs log).Nodup ∧ ((enqs log).length : Int) ≤ loopGraph.numPages ∧
      ((deqs log).length : Int) ≤ loopGraph.numPages :=
  ⟨⟨by decide, by decide, by decide, by decide⟩,
   bfs_enqueue_once loopGraph 0 (by decide) (by decide) (by decide) 3 (by decide)⟩

/-- C17: on a well-formed graph and a start index in range, every index with
which `bfsTraversal` accesses `visited`, `urls` or `adjList` lies in
`[0, numPages)`, and no `dequeue` call of its loop returns the sentinel `-1`. -/
theorem bfs_indices_in_range (g : Graph) (start : Int) (hg : g.WellFormed) (h0 : 0 ≤ start)
    (h1 : start < g.numPages) (fuel : Nat) (hfuel : g.numPages.toNat ≤ fuel) :
    ∃ out log, bfsTraversalLog fuel g start = some (out, log) ∧
      bfsTraversal fuel g start = some out ∧
      (∀ i ∈ idxs log, 0 ≤ i ∧ i < g.numPages) ∧ ∀ v ∈ deqs log, v ≠ -1 := by
  obtain ⟨out, log, hl, hb, _, hD, _, hrange, hidx⟩ :=
    bfs_log_master g start hg h0 h1 fuel hfuel
  refine ⟨out, log, hl, hb, hidx, ?_⟩
  intro v hv
  rw [hD] at hv
  have := hrange v hv
  omega

/-- Witness for C17: `loopGraph` from page 2 with fuel 3. -/
theorem bfs_indices_in_range_witness :
    (loopGraph.WellFormed ∧ (0 : Int) ≤ 2 ∧ (2 : Int) < loopGraph.numPages ∧
      loopGraph.numPages.toNat ≤ 3) ∧
    ∃ out log, bfsTraversalLog 3 loopGraph 2 = some (out, log) ∧
      bfsTraversal 3 loopGraph 2 = some out ∧
      (∀ i ∈ idxs log, 0 ≤ i ∧ i < loopGraph.numPages) ∧ ∀ v ∈ deqs log, v ≠ -1 :=
  ⟨⟨by decide, by decide, by decide, by decide⟩,
   bfs_indices_in_range loopGraph 2 (by decide) (by decide) (by decide) 3 (by decide)⟩

end WebCrawler
